import Mathlib

/-!
Verification of the PySET game-logic core (`main.py`): the card algebra
(enums, complement, shorthand encoding), the triple search, and the
`SetGame` engine (draw pile / active layout / discard, dealing,
replenishment, set removal).  Python's `random.sample` is modelled by an
explicit sampler function; mutable state is modelled by explicit state
passing on a `GameState` structure.
-/

set_option maxRecDepth 4000

namespace PySET

/-- `class Number(Enum)` from the source: three-valued attribute. -/
inductive Number
  | ONE
  | TWO
  | THREE
  deriving DecidableEq, Fintype

/-- `class Color(Enum)` from the source. -/
inductive Color
  | RED
  | GREEN
  | PURPLE
  deriving DecidableEq, Fintype

/-- `class Shading(Enum)` from the source. -/
inductive Shading
  | EMPTY
  | FILLED
  | HATCHED
  deriving DecidableEq, Fintype

/-- `class Symbol(Enum)` from the source. -/
inductive Symbol
  | SQUIGGLE
  | DIAMOND
  | OVAL
  deriving DecidableEq, Fintype

/-- `(new_properties[p],) = set(type(val1)) - {val1, val2}`: the unique value
of the enumeration distinct from both arguments.  The source only evaluates
this under `val1 != val2`; the diagonal is mapped to the first argument and is
never reached. -/
def Number.third : Number → Number → Number
  | .ONE, .TWO => .THREE
  | .TWO, .ONE => .THREE
  | .ONE, .THREE => .TWO
  | .THREE, .ONE => .TWO
  | .TWO, .THREE => .ONE
  | .THREE, .TWO => .ONE
  | x, _ => x

/-- The unique third `Color`, as for `Number.third`. -/
def Color.third : Color → Color → Color
  | .RED, .GREEN => .PURPLE
  | .GREEN, .RED => .PURPLE
  | .RED, .PURPLE => .GREEN
  | .PURPLE, .RED => .GREEN
  | .GREEN, .PURPLE => .RED
  | .PURPLE, .GREEN => .RED
  | x, _ => x

/-- The unique third `Shading`, as for `Number.third`. -/
def Shading.third : Shading → Shading → Shading
  | .EMPTY, .FILLED => .HATCHED
  | .FILLED, .EMPTY => .HATCHED
  | .EMPTY, .HATCHED => .FILLED
  | .HATCHED, .EMPTY => .FILLED
  | .FILLED, .HATCHED => .EMPTY
  | .HATCHED, .FILLED => .EMPTY
  | x, _ => x

/-- The unique third `Symbol`, as for `Number.third`. -/
def Symbol.third : Symbol → Symbol → Symbol
  | .SQUIGGLE, .DIAMOND => .OVAL
  | .DIAMOND, .SQUIGGLE => .OVAL
  | .SQUIGGLE, .OVAL => .DIAMOND
  | .OVAL, .SQUIGGLE => .DIAMOND
  | .DIAMOND, .OVAL => .SQUIGGLE
  | .OVAL, .DIAMOND => .SQUIGGLE
  | x, _ => x

/-- `class Card`: an immutable 4-tuple, one value per dimension, with
structural equality (`__eq__` compares all four attributes). -/
structure Card where
  number : Number
  color : Color
  shading : Shading
  symbol : Symbol
  deriving DecidableEq

/-- The 81-card universe, in the `itertools.product(Number, Color, Shading,
Symbol)` enumeration order used by `SetGame.__init__`. -/
def allCards : List Card :=
  [Number.ONE, Number.TWO, Number.THREE].flatMap fun n =>
    [Color.RED, Color.GREEN, Color.PURPLE].flatMap fun c =>
      [Shading.EMPTY, Shading.FILLED, Shading.HATCHED].flatMap fun s =>
        [Symbol.SQUIGGLE, Symbol.DIAMOND, Symbol.OVAL].map fun y =>
          ⟨n, c, s, y⟩

lemma allCards_nodup : allCards.Nodup := by decide

lemma mem_allCards : ∀ x : Card, x ∈ allCards := by
  intro x
  cases x with
  | mk n c s y => cases n <;> cases c <;> cases s <;> cases y <;> decide

instance : Fintype Card where
  elems := ⟨allCards, allCards_nodup⟩
  complete := mem_allCards

/-- One dimension of the `Card.complement` loop body: keep a shared value
(`if val1 == val2`), otherwise take the unique remaining value. -/
def triApply {α : Type} [DecidableEq α] (third : α → α → α) (x y : α) : α :=
  if x = y then x else third x y

/-- The per-dimension body of `Card.complement`: keep a shared value,
otherwise take the unique remaining value of the dimension. -/
def Card.complementCore (self other : Card) : Card where
  number := triApply Number.third self.number other.number
  color := triApply Color.third self.color other.color
  shading := triApply Shading.third self.shading other.shading
  symbol := triApply Symbol.third self.symbol other.symbol

/-- `Card.complement` from the source: `None` (here `none`) when the two
cards coincide, otherwise the unique card completing a valid set. -/
def Card.complement (self other : Card) : Option Card :=
  if self = other then none else some (Card.complementCore self other)

/-- `REVERSE_SHORTHAND` restricted to `Number`. -/
def Number.shorthandChar : Number → Char
  | .ONE => '1'
  | .TWO => '2'
  | .THREE => '3'

/-- `REVERSE_SHORTHAND` restricted to `Color`. -/
def Color.shorthandChar : Color → Char
  | .RED => 'r'
  | .GREEN => 'g'
  | .PURPLE => 'p'

/-- `REVERSE_SHORTHAND` restricted to `Shading`. -/
def Shading.shorthandChar : Shading → Char
  | .EMPTY => 'e'
  | .FILLED => 'f'
  | .HATCHED => 'h'

/-- `REVERSE_SHORTHAND` restricted to `Symbol`. -/
def Symbol.shorthandChar : Symbol → Char
  | .SQUIGGLE => 's'
  | .DIAMOND => 'd'
  | .OVAL => 'o'

/-- `Card.to_shorthand`: one character per dimension, in the fixed
`properties` order number, color, shading, symbol. -/
def Card.to_shorthand (c : Card) : List Char :=
  [c.number.shorthandChar, c.color.shorthandChar,
   c.shading.shorthandChar, c.symbol.shorthandChar]

/-- A value of `SHORTHAND_MAP`: an attribute value of one of the four
dimensions. -/
inductive ShorthandValue
  | num (v : Number)
  | col (v : Color)
  | sha (v : Shading)
  | sym (v : Symbol)
  deriving DecidableEq

/-- `SHORTHAND_MAP` from the source; `none` models a `KeyError` on an
unrecognised character. -/
def SHORTHAND_MAP : Char → Option ShorthandValue
  | '1' => some (.num .ONE)
  | '2' => some (.num .TWO)
  | '3' => some (.num .THREE)
  | 'r' => some (.col .RED)
  | 'g' => some (.col .GREEN)
  | 'p' => some (.col .PURPLE)
  | 'e' => some (.sha .EMPTY)
  | 'f' => some (.sha .FILLED)
  | 'h' => some (.sha .HATCHED)
  | 'd' => some (.sym .DIAMOND)
  | 's' => some (.sym .SQUIGGLE)
  | 'o' => some (.sym .OVAL)
  | _ => none

/-- The keyword-argument dictionary built by `Card.from_shorthand`:
`{type(SHORTHAND_MAP[c]).__name__.lower(): SHORTHAND_MAP[c] for c in shorthand}`
keyed by dimension, later entries overwriting earlier ones. -/
structure ShorthandParams where
  number : Option Number
  color : Option Color
  shading : Option Shading
  symbol : Option Symbol

/-- Insert one looked-up value into the dictionary, keyed by its dimension. -/
def ShorthandParams.apply (p : ShorthandParams) : ShorthandValue → ShorthandParams
  | .num v => { p with number := some v }
  | .col v => { p with color := some v }
  | .sha v => { p with shading := some v }
  | .sym v => { p with symbol := some v }

/-- `Card.from_shorthand`: `ValueError` on length ≠ 4, `KeyError` on an
unrecognised character, and `TypeError` from `Card(**params)` when some
dimension is missing — all modelled as `none`. -/
def Card.from_shorthand (s : List Char) : Option Card :=
  if s.length ≠ 4 then none
  else
    match s.foldlM (fun p ch => (SHORTHAND_MAP ch).map p.apply)
        (⟨none, none, none, none⟩ : ShorthandParams) with
    | some ⟨some n, some c, some sh, some sy⟩ => some ⟨n, c, sh, sy⟩
    | _ => none

/-- Inner loop of `find_triples` at a fixed `card1`, walking the suffix after
it: raise on a duplicate of `card1`, otherwise yield `(card1, card2, card3)`
whenever the complement `card3` occurs in `card_list[j + 1 :]`. -/
def ftInner (card1 : Card) : List Card → Except String (List (Card × Card × Card))
  | [] => .ok []
  | card2 :: rest =>
    if card1 = card2 then .error "duplicate card found"
    else
      match ftInner card1 rest with
      | .error e => .error e
      | .ok tail =>
        match Card.complement card1 card2 with
        | some card3 =>
          if card3 ∈ rest then .ok ((card1, card2, card3) :: tail) else .ok tail
        | none => .ok tail

/-- Outer loop of `find_triples`: one row per position `i`. -/
def ftOuter : List Card → Except String (List (Card × Card × Card))
  | [] => .ok []
  | card1 :: rest =>
    match ftInner card1 rest, ftOuter rest with
    | .ok here, .ok there => .ok (here ++ there)
    | .error e, _ => .error e
    | _, .error e => .error e

/-- `find_triples` from the source, as consumed through `list(...)`: the
list of yielded triples, or the duplicate-card exception. -/
def find_triples (cards : List Card) : Except String (List (Card × Card × Card)) :=
  ftOuter cards

/-- The all-same-or-all-different rule on a single dimension. -/
def sameOrDistinct {α : Type} (x y z : α) : Prop :=
  (x = y ∧ y = z) ∨ (x ≠ y ∧ x ≠ z ∧ y ≠ z)

instance {α : Type} [DecidableEq α] (x y z : α) : Decidable (sameOrDistinct x y z) := by
  unfold sameOrDistinct
  infer_instance

/-- Three cards form a valid set: on every one of the four dimensions the
three values are all identical or all pairwise distinct. -/
def ValidSet (a b c : Card) : Prop :=
  sameOrDistinct a.number b.number c.number ∧
  sameOrDistinct a.color b.color c.color ∧
  sameOrDistinct a.shading b.shading c.shading ∧
  sameOrDistinct a.symbol b.symbol c.symbol

instance (a b c : Card) : Decidable (ValidSet a b c) := by
  unfold ValidSet
  infer_instance

/-! ### Card-algebra lemmas -/

lemma triApply_num_comm : ∀ x y : Number,
    triApply Number.third x y = triApply Number.third y x := by decide

lemma triApply_col_comm : ∀ x y : Color,
    triApply Color.third x y = triApply Color.third y x := by decide

lemma triApply_sha_comm : ∀ x y : Shading,
    triApply Shading.third x y = triApply Shading.third y x := by decide

lemma triApply_sym_comm : ∀ x y : Symbol,
    triApply Symbol.third x y = triApply Symbol.third y x := by decide

lemma triApply_num_invol : ∀ x y : Number,
    triApply Number.third x (triApply Number.third x y) = y := by decide

lemma triApply_col_invol : ∀ x y : Color,
    triApply Color.third x (triApply Color.third x y) = y := by decide

lemma triApply_sha_invol : ∀ x y : Shading,
    triApply Shading.third x (triApply Shading.third x y) = y := by decide

lemma triApply_sym_invol : ∀ x y : Symbol,
    triApply Symbol.third x (triApply Symbol.third x y) = y := by decide

lemma triApply_num_valid : ∀ x y : Number,
    sameOrDistinct x y (triApply Number.third x y) := by decide

lemma triApply_col_valid : ∀ x y : Color,
    sameOrDistinct x y (triApply Color.third x y) := by decide

lemma triApply_sha_valid : ∀ x y : Shading,
    sameOrDistinct x y (triApply Shading.third x y) := by decide

lemma triApply_sym_valid : ∀ x y : Symbol,
    sameOrDistinct x y (triApply Symbol.third x y) := by decide

lemma complementCore_comm (a b : Card) :
    Card.complementCore a b = Card.complementCore b a := by
  unfold Card.complementCore
  rw [triApply_num_comm, triApply_col_comm, triApply_sha_comm, triApply_sym_comm]

lemma complementCore_valid (a b : Card) :
    ValidSet a b (Card.complementCore a b) :=
  ⟨triApply_num_valid _ _, triApply_col_valid _ _,
    triApply_sha_valid _ _, triApply_sym_valid _ _⟩

lemma complementCore_invol (a b : Card) :
    Card.complementCore a (Card.complementCore a b) = b := by
  cases a
  cases b
  unfold Card.complementCore
  rw [triApply_num_invol, triApply_col_invol, triApply_sha_invol, triApply_sym_invol]

lemma sameOrDistinct_right {α : Type} {x y : α} (h : sameOrDistinct x y x) : x = y := by
  rcases h with ⟨h1, _⟩ | ⟨_, h2, _⟩
  · exact h1
  · exact absurd rfl h2

lemma sameOrDistinct_mid {α : Type} {x y : α} (h : sameOrDistinct x y y) : x = y := by
  rcases h with ⟨h1, _⟩ | ⟨_, _, h3⟩
  · exact h1
  · exact absurd rfl h3

lemma complementCore_ne_left {a b : Card} (hab : a ≠ b) :
    Card.complementCore a b ≠ a := by
  intro h
  obtain ⟨h1, h2, h3, h4⟩ := complementCore_valid a b
  rw [h] at h1 h2 h3 h4
  exact hab (by
    cases a; cases b
    simp only [Card.mk.injEq]
    exact ⟨sameOrDistinct_right h1, sameOrDistinct_right h2,
      sameOrDistinct_right h3, sameOrDistinct_right h4⟩)

lemma complementCore_ne_right {a b : Card} (hab : a ≠ b) :
    Card.complementCore a b ≠ b := by
  intro h
  obtain ⟨h1, h2, h3, h4⟩ := complementCore_valid a b
  rw [h] at h1 h2 h3 h4
  exact hab (by
    cases a; cases b
    simp only [Card.mk.injEq]
    exact ⟨sameOrDistinct_mid h1, sameOrDistinct_mid h2,
      sameOrDistinct_mid h3, sameOrDistinct_mid h4⟩)

lemma complement_eq_some {a b : Card} (hab : a ≠ b) :
    Card.complement a b = some (Card.complementCore a b) := by
  unfold Card.complement
  rw [if_neg hab]

lemma complement_some_iff {a b c : Card} :
    Card.complement a b = some c ↔ a ≠ b ∧ c = Card.complementCore a b := by
  unfold Card.complement
  split
  · simp_all
  · simp_all [eq_comm]

/-- Full orbit of the complement relation: any two cards of a valid triple
determine the third via `complement`, in either order. -/
lemma complement_rotate {a b c : Card} (h : Card.complement a b = some c) :
    Card.complement b a = some c ∧ Card.complement a c = some b ∧
    Card.complement c a = some b ∧ Card.complement b c = some a ∧
    Card.complement c b = some a := by
  obtain ⟨hab, hc⟩ := complement_some_iff.mp h
  subst hc
  have hca : Card.complementCore a b ≠ a := complementCore_ne_left hab
  have hcb : Card.complementCore a b ≠ b := complementCore_ne_right hab
  refine ⟨?_, ?_, ?_, ?_, ?_⟩
  · rw [complement_eq_some (Ne.symm hab), complementCore_comm]
  · rw [complement_eq_some (Ne.symm hca), complementCore_invol a b]
  · rw [complement_eq_some hca, complementCore_comm, complementCore_invol a b]
  · rw [complement_eq_some (Ne.symm hcb), complementCore_comm a b,
      complementCore_invol b a]
  · rw [complement_eq_some hcb, complementCore_comm _ b,
      complementCore_comm a b, complementCore_invol b a]

/-! ### Claims C6 and C9: the complement operation -/

/-- C6: for all distinct cards `a` and `b`, `complement` is commutative and
`{a, b, complement(a, b)}` is a valid set: on every one of the four
dimensions the three values are all identical or all pairwise distinct. -/
theorem complement_comm_and_valid (a b : Card) (hab : a ≠ b) :
    Card.complement a b = Card.complement b a ∧
    Card.complement a b = some (Card.complementCore a b) ∧
    ValidSet a b (Card.complementCore a b) := by
  refine ⟨?_, complement_eq_some hab, complementCore_valid a b⟩
  rw [complement_eq_some hab, complement_eq_some (Ne.symm hab), complementCore_comm]

theorem complement_comm_and_valid_witness :
    (⟨.ONE, .RED, .EMPTY, .SQUIGGLE⟩ : Card) ≠ ⟨.ONE, .RED, .EMPTY, .DIAMOND⟩ ∧
    (Card.complement ⟨.ONE, .RED, .EMPTY, .SQUIGGLE⟩ ⟨.ONE, .RED, .EMPTY, .DIAMOND⟩ =
        Card.complement ⟨.ONE, .RED, .EMPTY, .DIAMOND⟩ ⟨.ONE, .RED, .EMPTY, .SQUIGGLE⟩ ∧
      Card.complement ⟨.ONE, .RED, .EMPTY, .SQUIGGLE⟩ ⟨.ONE, .RED, .EMPTY, .DIAMOND⟩ =
        some (Card.complementCore ⟨.ONE, .RED, .EMPTY, .SQUIGGLE⟩ ⟨.ONE, .RED, .EMPTY, .DIAMOND⟩) ∧
      ValidSet ⟨.ONE, .RED, .EMPTY, .SQUIGGLE⟩ ⟨.ONE, .RED, .EMPTY, .DIAMOND⟩
        (Card.complementCore ⟨.ONE, .RED, .EMPTY, .SQUIGGLE⟩ ⟨.ONE, .RED, .EMPTY, .DIAMOND⟩)) :=
  ⟨by decide, complement_comm_and_valid _ _ (by decide)⟩

/-- C9: `complement(a, a)` returns `None` (here `none`) rather than raising,
and a `none` result occurs exactly on equal arguments, so the degenerate
input is signalled only by this `None` result. -/
theorem complement_self_none :
    (∀ a : Card, Card.complement a a = none) ∧
    (∀ a b : Card, Card.complement a b = none ↔ a = b) := by
  constructor
  · intro a
    simp [Card.complement]
  · intro a b
    unfold Card.complement
    split
    · simp_all
    · simp_all

/-! ### Claim C7: the shorthand encoding -/

/-- C7: shorthand encoding is a bijection between the 81 cards and the 81
canonical four-character encodings: `decode (encode x) = x` for every card,
and `encode (decode s) = s` for every `s` in the image of `encode`. -/
theorem shorthand_bijection :
    (∀ x : Card, Card.from_shorthand (Card.to_shorthand x) = some x) ∧
    (∀ s : List Char, (∃ x : Card, Card.to_shorthand x = s) →
      ∃ y : Card, Card.from_shorthand s = some y ∧ Card.to_shorthand y = s) := by
  have round : ∀ x : Card, Card.from_shorthand (Card.to_shorthand x) = some x := by
    intro x
    cases x with
    | mk n c s y => cases n <;> cases c <;> cases s <;> cases y <;> rfl
  refine ⟨round, ?_⟩
  rintro s ⟨x, rfl⟩
  exact ⟨x, round x, rfl⟩

theorem shorthand_bijection_witness :
    (∃ x : Card, Card.to_shorthand x = ['2', 'g', 'f', 'o']) ∧
    ∃ y : Card, Card.from_shorthand ['2', 'g', 'f', 'o'] = some y ∧
      Card.to_shorthand y = ['2', 'g', 'f', 'o'] :=
  ⟨⟨⟨.TWO, .GREEN, .FILLED, .OVAL⟩, rfl⟩,
    shorthand_bijection.2 _ ⟨⟨.TWO, .GREEN, .FILLED, .OVAL⟩, rfl⟩⟩

/-! ### Claim C1: `find_triples` -/

/-- The unordered triple underlying a yielded ordered triple. -/
def tripleFinset (t : Card × Card × Card) : Finset Card :=
  {t.1, t.2.1, t.2.2}

/-- A triple qualifies for `find_triples`: positions `i < j` hold its first
two cards, the third is their complement, and it occurs at a later position
`k > j`. -/
def Qualifies (cards : List Card) (t : Card × Card × Card) : Prop :=
  ∃ i j k : Nat, i < j ∧ j < k ∧
    cards[i]? = some t.1 ∧ cards[j]? = some t.2.1 ∧ cards[k]? = some t.2.2 ∧
    Card.complement t.1 t.2.1 = some t.2.2

lemma ftInner_ok_of_not_mem {card1 : Card} {rest : List Card} (h : card1 ∉ rest) :
    ∃ l, ftInner card1 rest = .ok l := by
  induction rest with
  | nil => exact ⟨[], rfl⟩
  | cons card2 rest ih =>
    obtain ⟨l, hl⟩ := ih (fun hm => h (List.mem_cons_of_mem _ hm))
    have hne : card1 ≠ card2 := fun he => h (he ▸ List.mem_cons_self _ _)
    rcases hm : Card.complement card1 card2 with _ | card3
    · exact ⟨l, by simp only [ftInner, if_neg hne, hl, hm]⟩
    · by_cases h3 : card3 ∈ rest
      · exact ⟨(card1, card2, card3) :: l,
          by simp only [ftInner, if_neg hne, hl, hm, if_pos h3]⟩
      · exact ⟨l, by simp only [ftInner, if_neg hne, hl, hm, if_neg h3]⟩

lemma ftInner_mem_iff {card1 : Card} {rest : List Card} {l : List (Card × Card × Card)}
    (hok : ftInner card1 rest = .ok l) (t : Card × Card × Card) :
    t ∈ l ↔ t.1 = card1 ∧ ∃ l2 l3, rest = l2 ++ t.2.1 :: l3 ∧
      Card.complement card1 t.2.1 = some t.2.2 ∧ t.2.2 ∈ l3 := by
  induction rest generalizing l with
  | nil =>
    simp only [ftInner] at hok
    cases hok
    simp
  | cons card2 rest ih =>
    by_cases hne : card1 = card2
    · simp only [ftInner, if_pos hne] at hok
      cases hok
    · rcases htl : ftInner card1 rest with e | tail
      · simp only [ftInner, if_neg hne, htl] at hok
        cases hok
      · have ihs := ih htl
        rcases hm : Card.complement card1 card2 with _ | card3
        · simp only [ftInner, if_neg hne, htl, hm, Except.ok.injEq] at hok
          subst hok
          rw [ihs]
          constructor
          · rintro ⟨h1, l2, l3, hsplit, hcmp, hmem⟩
            exact ⟨h1, card2 :: l2, l3, by rw [hsplit]; rfl, hcmp, hmem⟩
          · rintro ⟨h1, l2, l3, hsplit, hcmp, hmem⟩
            cases l2 with
            | nil =>
              simp only [List.nil_append, List.cons.injEq] at hsplit
              exfalso
              rw [hsplit.1] at hm
              rw [hm] at hcmp
              cases hcmp
            | cons hd l2 =>
              simp only [List.cons_append, List.cons.injEq] at hsplit
              exact ⟨h1, l2, l3, hsplit.2, hcmp, hmem⟩
        · by_cases h3 : card3 ∈ rest
          · simp only [ftInner, if_neg hne, htl, hm, if_pos h3, Except.ok.injEq] at hok
            subst hok
            constructor
            · intro hmem
              rcases List.mem_cons.mp hmem with he | htail
              · subst he
                exact ⟨rfl, [], rest, rfl, hm, h3⟩
              · obtain ⟨h1, l2, l3, hsplit, hcmp, hmm⟩ := ihs.mp htail
                exact ⟨h1, card2 :: l2, l3, by rw [hsplit]; rfl, hcmp, hmm⟩
            · rintro ⟨h1, l2, l3, hsplit, hcmp, hmm⟩
              cases l2 with
              | nil =>
                simp only [List.nil_append, List.cons.injEq] at hsplit
                obtain ⟨he2, he3⟩ := hsplit
                subst he2
                subst he3
                rw [hm] at hcmp
                obtain rfl : card3 = t.2.2 := by cases hcmp; rfl
                exact List.mem_cons.mpr (Or.inl (Prod.ext h1 (Prod.ext rfl rfl)))
              | cons hd l2 =>
                simp only [List.cons_append, List.cons.injEq] at hsplit
                exact List.mem_cons_of_mem _ (ihs.mpr ⟨h1, l2, l3, hsplit.2, hcmp, hmm⟩)
          · simp only [ftInner, if_neg hne, htl, hm, if_neg h3, Except.ok.injEq] at hok
            subst hok
            rw [ihs]
            constructor
            · rintro ⟨h1, l2, l3, hsplit, hcmp, hmm⟩
              exact ⟨h1, card2 :: l2, l3, by rw [hsplit]; rfl, hcmp, hmm⟩
            · rintro ⟨h1, l2, l3, hsplit, hcmp, hmm⟩
              cases l2 with
              | nil =>
                simp only [List.nil_append, List.cons.injEq] at hsplit
                exfalso
                obtain ⟨he2, he3⟩ := hsplit
                subst he2
                subst he3
                rw [hm] at hcmp
                cases hcmp
                exact h3 hmm
              | cons hd l2 =>
                simp only [List.cons_append, List.cons.injEq] at hsplit
                exact ⟨h1, l2, l3, hsplit.2, hcmp, hmm⟩

lemma ftInner_nodup {card1 : Card} {rest : List Card} {l : List (Card × Card × Card)}
    (hn : rest.Nodup) (hok : ftInner card1 rest = .ok l) : l.Nodup := by
  induction rest generalizing l with
  | nil =>
    simp only [ftInner, Except.ok.injEq] at hok
    subst hok
    exact List.nodup_nil
  | cons card2 rest ih =>
    rw [List.nodup_cons] at hn
    by_cases hne : card1 = card2
    · simp only [ftInner, if_pos hne] at hok
      cases hok
    · rcases htl : ftInner card1 rest with e | tail
      · simp only [ftInner, if_neg hne, htl] at hok
        cases hok
      · have htn := ih hn.2 htl
        rcases hm : Card.complement card1 card2 with _ | card3
        · simp only [ftInner, if_neg hne, htl, hm, Except.ok.injEq] at hok
          subst hok
          exact htn
        · by_cases h3 : card3 ∈ rest
          · simp only [ftInner, if_neg hne, htl, hm, if_pos h3, Except.ok.injEq] at hok
            subst hok
            refine List.nodup_cons.mpr ⟨?_, htn⟩
            intro hmem
            obtain ⟨-, l2, l3, hsplit, -, -⟩ := (ftInner_mem_iff htl _).mp hmem
            apply hn.1
            rw [hsplit]
            exact List.mem_append_right _ (List.mem_cons_self _ _)
          · simp only [ftInner, if_neg hne, htl, hm, if_neg h3, Except.ok.injEq] at hok
            subst hok
            exact htn

lemma ftOuter_ok_of_nodup {cards : List Card} (h : cards.Nodup) :
    ∃ l, ftOuter cards = .ok l := by
  induction cards with
  | nil => exact ⟨[], rfl⟩
  | cons c rest ih =>
    rw [List.nodup_cons] at h
    obtain ⟨here, hin⟩ := ftInner_ok_of_not_mem h.1
    obtain ⟨there, hout⟩ := ih h.2
    exact ⟨here ++ there, by simp only [ftOuter, hin, hout]⟩

lemma ftOuter_mem_iff {cards : List Card} {l : List (Card × Card × Card)}
    (hok : ftOuter cards = .ok l) (t : Card × Card × Card) :
    t ∈ l ↔ ∃ l1 l2 l3, cards = l1 ++ t.1 :: (l2 ++ t.2.1 :: l3) ∧
      Card.complement t.1 t.2.1 = some t.2.2 ∧ t.2.2 ∈ l3 := by
  induction cards generalizing l with
  | nil =>
    simp only [ftOuter, Except.ok.injEq] at hok
    subst hok
    constructor
    · intro hmem
      cases hmem
    · rintro ⟨l1, l2, l3, hsplit, -, -⟩
      exact absurd hsplit (by simp)
  | cons c rest ih =>
    rcases hin : ftInner c rest with e | here
    · simp only [ftOuter, hin] at hok
      cases hok
    · rcases hout : ftOuter rest with e | there
      · simp only [ftOuter, hin, hout] at hok
        cases hok
      · simp only [ftOuter, hin, hout, Except.ok.injEq] at hok
        subst hok
        rw [List.mem_append]
        constructor
        · rintro (hh | ht)
          · obtain ⟨h1, l2, l3, hsplit, hcmp, hmm⟩ := (ftInner_mem_iff hin _).mp hh
            refine ⟨[], l2, l3, ?_, ?_, hmm⟩
            · simp only [List.nil_append]
              rw [← h1, hsplit]
            · rw [h1]
              exact hcmp
          · obtain ⟨l1, l2, l3, hsplit, hcmp, hmm⟩ := (ih hout).mp ht
            exact ⟨c :: l1, l2, l3, by rw [hsplit, List.cons_append], hcmp, hmm⟩
        · rintro ⟨l1, l2, l3, hsplit, hcmp, hmm⟩
          cases l1 with
          | nil =>
            left
            simp only [List.nil_append, List.cons.injEq] at hsplit
            obtain ⟨h1, hrest⟩ := hsplit
            refine (ftInner_mem_iff hin _).mpr ⟨h1.symm, l2, l3, hrest, ?_, hmm⟩
            rw [h1]
            exact hcmp
          | cons hd l1 =>
            right
            simp only [List.cons_append, List.cons.injEq] at hsplit
            exact (ih hout).mpr ⟨l1, l2, l3, hsplit.2, hcmp, hmm⟩

lemma ftOuter_nodup {cards : List Card} {l : List (Card × Card × Card)}
    (h : cards.Nodup) (hok : ftOuter cards = .ok l) : l.Nodup := by
  induction cards generalizing l with
  | nil =>
    simp only [ftOuter, Except.ok.injEq] at hok
    subst hok
    exact List.nodup_nil
  | cons c rest ih =>
    rw [List.nodup_cons] at h
    rcases hin : ftInner c rest with e | here
    · simp only [ftOuter, hin] at hok
      cases hok
    · rcases hout : ftOuter rest with e | there
      · simp only [ftOuter, hin, hout] at hok
        cases hok
      · simp only [ftOuter, hin, hout, Except.ok.injEq] at hok
        subst hok
        rw [List.nodup_append]
        refine ⟨ftInner_nodup h.2 hin, ih h.2 hout, ?_⟩
        intro t hth htt
        obtain ⟨h1, -, -, -⟩ := (ftInner_mem_iff hin _).mp hth
        obtain ⟨l1, l2, l3, hsplit, -, -⟩ := (ftOuter_mem_iff hout _).mp htt
        apply h.1
        rw [← h1, hsplit]
        exact List.mem_append.mpr (Or.inr (List.mem_cons_self _ _))

lemma split_at1 {α : Type} {l : List α} {i : Nat} {x : α} (hx : l[i]? = some x) :
    ∃ A B, l = A ++ x :: B ∧ A.length = i ∧ B = l.drop (i + 1) := by
  induction l generalizing i with
  | nil => simp at hx
  | cons hd tl ih =>
    cases i with
    | zero =>
      rw [List.getElem?_cons_zero] at hx
      cases hx
      exact ⟨[], tl, rfl, rfl, rfl⟩
    | succ i =>
      rw [List.getElem?_cons_succ] at hx
      obtain ⟨A, B, h1, h2, h3⟩ := ih hx
      exact ⟨hd :: A, B, by rw [h1]; rfl, by simp [h2], h3⟩

lemma getElem?_append_cons {α : Type} (A : List α) (x : α) (B : List α) :
    (A ++ x :: B)[A.length]? = some x := by
  induction A with
  | nil => simp
  | cons hd tl ih => simpa using ih

lemma getElem?_append_cons_add {α : Type} (A : List α) (x : α) (B : List α) (n : Nat) :
    (A ++ x :: B)[A.length + 1 + n]? = B[n]? := by
  induction A with
  | nil =>
    simp only [List.nil_append, List.length_nil]
    rw [show 0 + 1 + n = n + 1 by omega]
    exact List.getElem?_cons_succ
  | cons hd tl ih =>
    simp only [List.cons_append, List.length_cons]
    rw [show tl.length + 1 + 1 + n = (tl.length + 1 + n) + 1 by omega]
    rw [List.getElem?_cons_succ]
    exact ih

lemma nodup_getElem?_unique {α : Type} {l : List α} (h : l.Nodup) {i j : Nat} {a : α}
    (hi : l[i]? = some a) (hj : l[j]? = some a) : i = j := by
  induction l generalizing i j with
  | nil => simp at hi
  | cons hd tl ih =>
    rw [List.nodup_cons] at h
    cases i with
    | zero =>
      cases j with
      | zero => rfl
      | succ j =>
        rw [List.getElem?_cons_zero] at hi
        cases hi
        rw [List.getElem?_cons_succ] at hj
        exact absurd (List.getElem?_mem hj) h.1
    | succ i =>
      cases j with
      | zero =>
        rw [List.getElem?_cons_zero] at hj
        cases hj
        rw [List.getElem?_cons_succ] at hi
        exact absurd (List.getElem?_mem hi) h.1
      | succ j =>
        rw [List.getElem?_cons_succ] at hi hj
        exact congrArg Nat.succ (ih h.2 hi hj)

lemma qualifies_iff_split {cards : List Card} {t : Card × Card × Card} :
    Qualifies cards t ↔ ∃ l1 l2 l3, cards = l1 ++ t.1 :: (l2 ++ t.2.1 :: l3) ∧
      Card.complement t.1 t.2.1 = some t.2.2 ∧ t.2.2 ∈ l3 := by
  constructor
  · rintro ⟨i, j, k, hij, hjk, hi, hj, hk, hcmp⟩
    obtain ⟨A, B, hAB, hA, hB⟩ := split_at1 hi
    have hjB : B[j - i - 1]? = some t.2.1 := by
      rw [hB, List.getElem?_drop]
      rw [show i + 1 + (j - i - 1) = j by omega]
      exact hj
    obtain ⟨A2, B2, hA2B2, hA2, hB2⟩ := split_at1 hjB
    refine ⟨A, A2, B2, ?_, hcmp, ?_⟩
    · rw [hAB, hA2B2]
    · have hkd : (cards.drop (j + 1))[k - j - 1]? = some t.2.2 := by
        rw [List.getElem?_drop]
        rw [show j + 1 + (k - j - 1) = k by omega]
        exact hk
      rw [hB2, hB, List.drop_drop, show i + 1 + (j - i - 1 + 1) = j + 1 by omega]
      exact List.getElem?_mem hkd
  · rintro ⟨l1, l2, l3, hsplit, hcmp, hmm⟩
    obtain ⟨n, hn⟩ := List.getElem?_of_mem hmm
    refine ⟨l1.length, l1.length + 1 + l2.length, l1.length + 1 + (l2.length + 1 + n),
      by omega, by omega, ?_, ?_, ?_, hcmp⟩
    · rw [hsplit]
      exact getElem?_append_cons _ _ _
    · rw [hsplit, getElem?_append_cons_add]
      exact getElem?_append_cons _ _ _
    · rw [hsplit, getElem?_append_cons_add, getElem?_append_cons_add]
      exact hn


lemma qualifies_distinct {cards : List Card} (h : cards.Nodup) {t : Card × Card × Card}
    (ht : Qualifies cards t) : t.1 ≠ t.2.1 ∧ t.1 ≠ t.2.2 ∧ t.2.1 ≠ t.2.2 := by
  obtain ⟨i, j, k, hij, hjk, hi, hj, hk, -⟩ := ht
  refine ⟨?_, ?_, ?_⟩
  · intro he
    rw [he] at hi
    have := nodup_getElem?_unique h hi hj
    omega
  · intro he
    rw [he] at hi
    have := nodup_getElem?_unique h hi hk
    omega
  · intro he
    rw [he] at hj
    have := nodup_getElem?_unique h hj hk
    omega

lemma qualifies_nodup_inj {cards : List Card} (h : cards.Nodup) {t u : Card × Card × Card}
    (ht : Qualifies cards t) (hu : Qualifies cards u)
    (hset : tripleFinset t = tripleFinset u) : t = u := by
  obtain ⟨i1, j1, k1, hij1, hjk1, hi1, hj1, hk1, -⟩ := ht
  obtain ⟨i2, j2, k2, hij2, hjk2, hi2, hj2, hk2, -⟩ := hu
  have hmem1 : u.1 = t.1 ∨ u.1 = t.2.1 ∨ u.1 = t.2.2 := by
    have : u.1 ∈ tripleFinset t := by
      rw [hset]
      simp [tripleFinset]
    simpa [tripleFinset, Finset.mem_insert] using this
  have hmem2 : u.2.1 = t.1 ∨ u.2.1 = t.2.1 ∨ u.2.1 = t.2.2 := by
    have : u.2.1 ∈ tripleFinset t := by
      rw [hset]
      simp [tripleFinset]
    simpa [tripleFinset, Finset.mem_insert] using this
  have hmem3 : u.2.2 = t.1 ∨ u.2.2 = t.2.1 ∨ u.2.2 = t.2.2 := by
    have : u.2.2 ∈ tripleFinset t := by
      rw [hset]
      simp [tripleFinset]
    simpa [tripleFinset, Finset.mem_insert] using this
  have e1 : i2 = i1 ∨ i2 = j1 ∨ i2 = k1 := by
    rcases hmem1 with he | he | he <;> rw [he] at hi2
    · exact Or.inl (nodup_getElem?_unique h hi2 hi1)
    · exact Or.inr (Or.inl (nodup_getElem?_unique h hi2 hj1))
    · exact Or.inr (Or.inr (nodup_getElem?_unique h hi2 hk1))
  have e2 : j2 = i1 ∨ j2 = j1 ∨ j2 = k1 := by
    rcases hmem2 with he | he | he <;> rw [he] at hj2
    · exact Or.inl (nodup_getElem?_unique h hj2 hi1)
    · exact Or.inr (Or.inl (nodup_getElem?_unique h hj2 hj1))
    · exact Or.inr (Or.inr (nodup_getElem?_unique h hj2 hk1))
  have e3 : k2 = i1 ∨ k2 = j1 ∨ k2 = k1 := by
    rcases hmem3 with he | he | he <;> rw [he] at hk2
    · exact Or.inl (nodup_getElem?_unique h hk2 hi1)
    · exact Or.inr (Or.inl (nodup_getElem?_unique h hk2 hj1))
    · exact Or.inr (Or.inr (nodup_getElem?_unique h hk2 hk1))
  have hii : i2 = i1 ∧ j2 = j1 ∧ k2 = k1 := by
    rcases e1 with e | e | e <;> rcases e2 with f | f | f <;> rcases e3 with g | g | g <;>
      omega
  obtain ⟨rfl, rfl, rfl⟩ := hii
  rw [hi1] at hi2
  rw [hj1] at hj2
  rw [hk1] at hk2
  exact Prod.ext (Option.some.inj hi2)
    (Prod.ext (Option.some.inj hj2) (Option.some.inj hk2))

/-- C1: on a duplicate-free input, `find_triples` succeeds and yields exactly
the qualifying triples — `(card[i], card[j], complement(card[i], card[j]))`
for the position pairs `i < j` whose complement occurs at a later position
`k > j` — each exactly once; no yielded triple repeats a card, and no two
yielded triples coincide as unordered triples. -/
theorem find_triples_spec (cards : List Card) (h : cards.Nodup) :
    ∃ l, find_triples cards = .ok l ∧
      (∀ t, t ∈ l ↔ Qualifies cards t) ∧
      l.Nodup ∧
      (∀ t ∈ l, t.1 ≠ t.2.1 ∧ t.1 ≠ t.2.2 ∧ t.2.1 ≠ t.2.2) ∧
      (l.map tripleFinset).Nodup := by
  obtain ⟨l, hok⟩ := ftOuter_ok_of_nodup h
  have hmem : ∀ t, t ∈ l ↔ Qualifies cards t := fun t =>
    (ftOuter_mem_iff hok t).trans qualifies_iff_split.symm
  have hnd : l.Nodup := ftOuter_nodup h hok
  refine ⟨l, hok, hmem, hnd, ?_, ?_⟩
  · intro t ht
    exact qualifies_distinct h ((hmem t).mp ht)
  · refine List.Nodup.map_on ?_ hnd
    intro x hx y hy hxy
    exact qualifies_nodup_inj h ((hmem x).mp hx) ((hmem y).mp hy) hxy

/-- A concrete 4-card layout used to witness `find_triples_spec`: the first
three cards form a valid set, the fourth is unrelated. -/
def witnessCards : List Card :=
  [⟨.ONE, .RED, .EMPTY, .SQUIGGLE⟩, ⟨.TWO, .RED, .EMPTY, .SQUIGGLE⟩,
   ⟨.THREE, .RED, .EMPTY, .SQUIGGLE⟩, ⟨.ONE, .GREEN, .FILLED, .OVAL⟩]

theorem find_triples_spec_witness :
    witnessCards.Nodup ∧
    ∃ l, find_triples witnessCards = .ok l ∧
      (∀ t, t ∈ l ↔ Qualifies witnessCards t) ∧
      l.Nodup ∧
      (∀ t ∈ l, t.1 ≠ t.2.1 ∧ t.1 ≠ t.2.2 ∧ t.2.1 ≠ t.2.2) ∧
      (l.map tripleFinset).Nodup :=
  ⟨by decide, find_triples_spec witnessCards (by decide)⟩

/-! ### The game engine -/

/-- `class State(Enum)` from the source. -/
inductive State
  | IN_GAME
  | GAME_OVER
  deriving DecidableEq

/-- The state of a `SetGame` instance: draw pile (a Python set of cards),
active layout (ordered list), discard (list of solved 3-card sets), and the
lifecycle state. -/
structure GameState where
  state : State
  draw : Finset Card
  active : List Card
  discard : List (Finset Card)
  deriving DecidableEq

/-- A model of `random.sample`: a function choosing a sample of the
requested size from the draw pile. -/
def Sampler : Type := Finset Card → Nat → List Card

/-- The sampler behaves as `random.sample` does: whenever the requested size
is at most the population size, it returns that many distinct members of the
population. -/
def IsValidSampler (f : Sampler) : Prop :=
  ∀ d n, n ≤ d.card → (f d n).length = n ∧ (f d n).Nodup ∧ ∀ x ∈ f d n, x ∈ d

/-- Python `list.insert(pos, x)`, for nonnegative `pos`, clamping to the end
of the list. -/
def pyInsert {α : Type} (l : List α) (pos : Nat) (x : α) : List α :=
  l.take pos ++ x :: l.drop pos

/-- `SetGame._deal`: sample `n` cards from the draw pile (the `ValueError`
raised by `random.sample` when `n` exceeds the population size is modelled
as `none`), extend the active layout with them — appended at the end, or
inserted at the given replacement positions in order — and subtract them
from the draw pile. -/
def deal (f : Sampler) (g : GameState) (n : Nat) (replacePos : Option (List Nat)) :
    Option GameState :=
  if n ≤ g.draw.card then
    let dealt := f g.draw n
    some { g with
      active :=
        match replacePos with
        | none => g.active ++ dealt
        | some ps => (ps.zip dealt).foldl (fun l pc => pyInsert l pc.1 pc.2) g.active
      draw := g.draw \ dealt.toFinset }
  else none

/-- Fuelled unfolding of the `SetGame._ensure_options` loop: while
`find_triples(active)` yields nothing, end the game if the draw pile is
empty, otherwise deal 3 more cards and retry.  Exceptions inside the loop
(`find_triples` raising on a duplicate, `random.sample` raising) are
modelled as `none`, as is fuel exhaustion — which enough fuel rules out. -/
def ensureOptionsFuel (f : Sampler) : Nat → GameState → Option GameState
  | 0, _ => none
  | fuel + 1, g =>
    match find_triples g.active with
    | .error _ => none
    | .ok ts =>
      if ts.length = 0 then
        if g.draw.card = 0 then some { g with state := State.GAME_OVER }
        else
          match deal f g 3 none with
          | none => none
          | some g2 => ensureOptionsFuel f fuel g2
      else some g

/-- `SetGame._ensure_options`, with enough fuel for any valid sampler: each
loop iteration removes 3 cards from the draw pile, so `draw.card + 1` steps
always suffice. -/
def ensure_options (f : Sampler) (g : GameState) : Option GameState :=
  ensureOptionsFuel f (g.draw.card + 1) g

/-- `SetGame.__init__`: full 81-card draw pile, empty active layout and
discard, state `IN_GAME`; deal 12 cards, then run the replenishment rule. -/
def new_game (f : Sampler) : Option GameState :=
  match deal f ⟨State.IN_GAME, Finset.univ, [], []⟩ 12 none with
  | none => none
  | some g1 => ensure_options f g1

/-- `sorted(...)` applied to the three removal indices. -/
def sort3 (i j k : Nat) : List Nat :=
  if i ≤ j then
    if j ≤ k then [i, j, k]
    else if i ≤ k then [i, k, j]
    else [k, i, j]
  else
    if i ≤ k then [j, i, k]
    else if j ≤ k then [j, k, i]
    else [k, j, i]

/-- The distinguishable `ValueError`s of `SetGame.remove_set`, plus a marker
for exceptions of the internal machinery (`random.sample` failing, or
`find_triples` raising on a duplicate layout) that the engine never
produces. -/
inductive RemoveError
  | gameOver
  | notDistinct
  | notActive
  | invalidSet
  | internalError
  deriving DecidableEq

/-- The mutating tail of `SetGame.remove_set`, after all four checks pass:
append the triple `{a, b, c}` to the discard, record the sorted positions of
the three cards, pop them in descending position order, and deal 3
replacement cards into those positions if the draw pile is non-empty and the
layout dropped below 12 cards. -/
def removeCore (f : Sampler) (g : GameState) (a b c : Card) : Option GameState :=
  let g1 : GameState := { g with discard := g.discard ++ [{a, b, c}] }
  let ps := sort3 (g.active.indexOf a) (g.active.indexOf b) (g.active.indexOf c)
  let g2 : GameState :=
    { g1 with active := ps.reverse.foldl (fun l p => l.eraseIdx p) g1.active }
  if 0 < g2.draw.card ∧ g2.active.length < 12 then deal f g2 3 (some ps) else some g2

/-- `SetGame.remove_set`: the four guard `ValueError`s in source order —
raised before any state is mutated — then the removal and a final
replenishment pass. -/
def remove_set (f : Sampler) (g : GameState) (a b c : Card) :
    Except RemoveError GameState :=
  if g.state = State.GAME_OVER then .error .gameOver
  else if ({a, b, c} : Finset Card).card ≠ 3 then .error .notDistinct
  else if ¬ (a ∈ g.active ∧ b ∈ g.active ∧ c ∈ g.active) then .error .notActive
  else if Card.complement a b ≠ some c then .error .invalidSet
  else
    match removeCore f g a b c with
    | none => .error .internalError
    | some gmid =>
      match ensure_options f gmid with
      | none => .error .internalError
      | some g2 => .ok g2

/-- The conservation invariant: draw pile, active layout and flattened
discard partition the 81-card universe as multisets — which also forces the
three parts to be duplicate-free and pairwise disjoint — the pile size is a
multiple of 3, and every discard entry holds exactly 3 cards. -/
def Inv (g : GameState) : Prop :=
  g.draw.val + (g.active : Multiset Card) + (g.discard.map Finset.val).sum
      = (Finset.univ : Finset Card).val ∧
  3 ∣ g.draw.card ∧
  ∀ s ∈ g.discard, s.card = 3

instance (g : GameState) : Decidable (Inv g) := by
  letI : Decidable (∀ s ∈ g.discard, Finset.card s = 3) :=
    List.decidableBAll (fun s => Finset.card s = 3) g.discard
  unfold Inv
  infer_instance

/-- The states one engine instance can reach: a fresh `new_game` followed by
any number of successful `remove_set` calls.  Failed calls raise before
mutating anything, leaving the state unchanged. -/
inductive Reachable (f : Sampler) : GameState → Prop
  | init (g : GameState) : new_game f = some g → Reachable f g
  | step (g : GameState) (a b c : Card) (g2 : GameState) :
      Reachable f g → remove_set f g a b c = .ok g2 → Reachable f g2

/-! ### Engine lemmas -/

lemma find_triples_eq (cards : List Card) : find_triples cards = ftOuter cards := rfl

lemma Inv.active_nodup {g : GameState} (hg : Inv g) : g.active.Nodup := by
  have h := hg.1
  have hle : (↑g.active : Multiset Card) ≤
      g.draw.val + ↑g.active + (g.discard.map Finset.val).sum := by
    calc (↑g.active : Multiset Card) ≤ g.draw.val + ↑g.active := Multiset.le_add_left _ _
    _ ≤ _ := Multiset.le_add_right _ _
  rw [h] at hle
  exact Multiset.coe_nodup.mp (Multiset.nodup_of_le hle Finset.univ.nodup)

lemma card_univ_81 : (Finset.univ : Finset Card).card = 81 := rfl

lemma card_list_sum (L : List (Multiset Card)) :
    Multiset.card L.sum = (L.map Multiset.card).sum := by
  induction L with
  | nil => rfl
  | cons h t ih => simp [ih]

lemma Inv.card_partition {g : GameState} (hg : Inv g) :
    g.draw.card + g.active.length + (g.discard.map Finset.card).sum = 81 := by
  have h := congrArg Multiset.card hg.1
  rw [Multiset.card_add, Multiset.card_add, card_list_sum, Multiset.coe_card,
    List.map_map] at h
  exact h

/-- Dealing with `replace_pos = None` under a valid sampler: the layout is
extended at the end, the dealt cards leave the pile. -/
lemma deal_append_spec {f : Sampler} (hf : IsValidSampler f) {g : GameState} {n : Nat}
    (hn : n ≤ g.draw.card) :
    ∃ g2, deal f g n none = some g2 ∧
      g2.active = g.active ++ f g.draw n ∧
      g2.state = g.state ∧ g2.discard = g.discard ∧
      g2.draw.val + ↑(f g.draw n) = g.draw.val ∧
      g2.draw.card + n = g.draw.card := by
  obtain ⟨hlen, hnd, hmem⟩ := hf g.draw n hn
  have hsub : (f g.draw n).toFinset ⊆ g.draw := fun x hx =>
    hmem x (List.mem_toFinset.mp hx)
  have hval : ((f g.draw n).toFinset).val = (↑(f g.draw n) : Multiset Card) := by
    rw [List.toFinset_val, List.dedup_eq_self.mpr hnd]
  have hle : (↑(f g.draw n) : Multiset Card) ≤ g.draw.val := by
    rw [← hval]
    exact Finset.val_le_iff.mpr hsub
  refine ⟨GameState.mk g.state (g.draw \ (f g.draw n).toFinset)
    (g.active ++ f g.draw n) g.discard, ?_, rfl, rfl, rfl, ?_, ?_⟩
  · simp only [deal, if_pos hn]
  · show (g.draw \ (f g.draw n).toFinset).val + ↑(f g.draw n) = g.draw.val
    rw [Finset.sdiff_val, hval]
    exact tsub_add_cancel_of_le hle
  · show (g.draw \ (f g.draw n).toFinset).card + n = g.draw.card
    rw [Finset.card_sdiff hsub, List.toFinset_card_of_nodup hnd, hlen]
    omega

/-- The replenishment loop, under a valid sampler and the conservation
invariant and with enough fuel: it succeeds, only appends dealt cards to the
layout, preserves the invariant and the discard, and ends either still in
the caller's state with at least one triple available, or in `GAME_OVER`
with an empty pile and no triple. -/
lemma ensureOptionsFuel_spec {f : Sampler} (hf : IsValidSampler f) :
    ∀ fuel (g : GameState), Inv g → g.draw.card < fuel →
      ∃ g2 ext, ensureOptionsFuel f fuel g = some g2 ∧
        g2.active = g.active ++ ext ∧
        g2.discard = g.discard ∧
        g2.draw.val + ↑ext = g.draw.val ∧
        Inv g2 ∧
        ((g2.state = g.state ∧ ∃ ts, find_triples g2.active = .ok ts ∧ ts ≠ []) ∨
         (g2.state = State.GAME_OVER ∧ g2.draw.card = 0 ∧
           find_triples g2.active = .ok [])) := by
  intro fuel
  induction fuel with
  | zero =>
    intro g hg hfuel
    omega
  | succ fuel ih =>
    intro g hg hfuel
    have hnd : g.active.Nodup := hg.active_nodup
    obtain ⟨ts, hts⟩ := ftOuter_ok_of_nodup hnd
    have hfind : find_triples g.active = .ok ts := hts
    by_cases hlen : ts.length = 0
    · have hts0 : ts = [] := List.length_eq_zero.mp hlen
      subst hts0
      by_cases hdraw : g.draw.card = 0
      · refine ⟨{ g with state := State.GAME_OVER }, [], ?_,
          (List.append_nil _).symm, rfl, by simp, hg, Or.inr ⟨rfl, hdraw, hfind⟩⟩
        simp [ensureOptionsFuel, hfind, hdraw]
      · have h3 : 3 ≤ g.draw.card := Nat.le_of_dvd (Nat.pos_of_ne_zero hdraw) hg.2.1
        obtain ⟨g1, hdeal, hact1, hst1, hdsc1, hval1, hcard1⟩ := deal_append_spec hf h3
        have hInv1 : Inv g1 := by
          refine ⟨?_, ?_, ?_⟩
          · have h := hg.1
            rw [← hval1] at h
            rw [hact1, hdsc1]
            rw [← Multiset.coe_add]
            rw [← h]
            abel
          · have := hg.2.1
            omega
          · rw [hdsc1]
            exact hg.2.2
        have hfuel1 : g1.draw.card < fuel := by omega
        obtain ⟨g2, ext, hrun, hact2, hdsc2, hval2, hInv2, hout⟩ := ih g1 hInv1 hfuel1
        refine ⟨g2, f g.draw 3 ++ ext, ?_, ?_, ?_, ?_, hInv2, ?_⟩
        · simp [ensureOptionsFuel, hfind, hlen, hdraw, hdeal, hrun]
        · rw [hact2, hact1, List.append_assoc]
        · rw [hdsc2, hdsc1]
        · rw [← Multiset.coe_add]
          calc g2.draw.val + ((↑(f g.draw 3) : Multiset Card) + ↑ext)
              = g2.draw.val + ↑ext + ↑(f g.draw 3) := by abel
          _ = g1.draw.val + ↑(f g.draw 3) := by rw [hval2]
          _ = g.draw.val := hval1
        · rcases hout with ⟨hstate, hts2⟩ | hright
          · exact Or.inl ⟨hstate.trans hst1, hts2⟩
          · exact Or.inr hright
    · refine ⟨g, [], ?_, (List.append_nil _).symm, rfl, by simp, hg,
        Or.inl ⟨rfl, ts, hfind, fun h0 => hlen (by rw [h0]; rfl)⟩⟩
      simp [ensureOptionsFuel, hfind, hlen]

/-- Three distinct cards of a layout related by `complement` produce a
qualifying triple, whatever their relative positions. -/
lemma qualifies_of_members {cards : List Card} (hnd : cards.Nodup) {a b c : Card}
    (ha : a ∈ cards) (hb : b ∈ cards) (hc : c ∈ cards)
    (hcomp : Card.complement a b = some c) : ∃ t, Qualifies cards t := by
  obtain ⟨hrot1, hrot2, hrot3, hrot4, hrot5⟩ := complement_rotate hcomp
  obtain ⟨hab, hcdef⟩ := complement_some_iff.mp hcomp
  have hca : c ≠ a := hcdef ▸ complementCore_ne_left hab
  have hcb : c ≠ b := hcdef ▸ complementCore_ne_right hab
  obtain ⟨i, hi⟩ := List.getElem?_of_mem ha
  obtain ⟨j, hj⟩ := List.getElem?_of_mem hb
  obtain ⟨k, hk⟩ := List.getElem?_of_mem hc
  have hij : i ≠ j := fun he => hab (by rw [he] at hi; exact Option.some.inj (hi.symm.trans hj))
  have hik : i ≠ k := fun he =>
    hca (by rw [he] at hi; exact (Option.some.inj (hi.symm.trans hk)).symm)
  have hjk : j ≠ k := fun he =>
    hcb (by rw [he] at hj; exact (Option.some.inj (hj.symm.trans hk)).symm)
  rcases Nat.lt_or_ge i j with h1 | h1
  · rcases Nat.lt_or_ge j k with h2 | h2
    · exact ⟨(a, b, c), i, j, k, h1, h2, hi, hj, hk, hcomp⟩
    · rcases Nat.lt_or_ge i k with h3 | h3
      · exact ⟨(a, c, b), i, k, j, h3, by omega, hi, hk, hj, hrot2⟩
      · exact ⟨(c, a, b), k, i, j, by omega, h1, hk, hi, hj, hrot3⟩
  · rcases Nat.lt_or_ge i k with h2 | h2
    · exact ⟨(b, a, c), j, i, k, by omega, h2, hj, hi, hk, hrot1⟩
    · rcases Nat.lt_or_ge j k with h3 | h3
      · exact ⟨(b, c, a), j, k, i, h3, by omega, hj, hk, hi, hrot4⟩
      · exact ⟨(c, b, a), k, j, i, by omega, by omega, hk, hj, hi, hrot5⟩

lemma find_triples_nonempty {cards : List Card} {ts : List (Card × Card × Card)}
    (hok : find_triples cards = .ok ts) (hnd : cards.Nodup)
    {a b c : Card} (ha : a ∈ cards) (hb : b ∈ cards) (hc : c ∈ cards)
    (hcomp : Card.complement a b = some c) : ts ≠ [] := by
  obtain ⟨t, ht⟩ := qualifies_of_members hnd ha hb hc hcomp
  exact List.ne_nil_of_mem ((ftOuter_mem_iff hok t).mpr (qualifies_iff_split.mp ht))

/-- A concrete valid sampler: the first `n` cards of the fixed enumeration
that lie in the pile. -/
def defaultSample : Sampler := fun d n => (allCards.filter (· ∈ d)).take n

lemma filter_allCards_length (d : Finset Card) :
    (allCards.filter (· ∈ d)).length = d.card := by
  have hnd : (allCards.filter (· ∈ d)).Nodup := allCards_nodup.filter _
  have htf : (allCards.filter (· ∈ d)).toFinset = d := by
    ext x
    simp [List.mem_toFinset, List.mem_filter, mem_allCards]
  rw [← List.toFinset_card_of_nodup hnd, htf]

lemma defaultSample_valid : IsValidSampler defaultSample := by
  intro d n hn
  refine ⟨?_, ?_, ?_⟩
  · simp only [defaultSample, List.length_take, filter_allCards_length]
    omega
  · exact (List.take_sublist _ _).nodup (allCards_nodup.filter _)
  · intro x hx
    have hxf : x ∈ allCards.filter (· ∈ d) := (List.take_sublist _ _).mem hx
    simpa using (List.mem_filter.mp hxf).2

/-- The three cards sharing color red, empty shading and squiggle symbol
form a valid set present in any layout holding the whole universe. -/
lemma complement_one_two_three :
    Card.complement ⟨.ONE, .RED, .EMPTY, .SQUIGGLE⟩ ⟨.TWO, .RED, .EMPTY, .SQUIGGLE⟩ =
      some ⟨.THREE, .RED, .EMPTY, .SQUIGGLE⟩ := by decide

/-- `new_game` under any valid sampler: success, the conservation invariant,
and the amended observable facts of claim C5. -/
lemma new_game_full (f : Sampler) (hf : IsValidSampler f) :
    ∃ g, new_game f = some g ∧ Inv g ∧ g.state = State.IN_GAME ∧
      12 ≤ g.active.length ∧ g.active.length % 3 = 0 ∧
      g.discard = [] ∧ g.draw.card + g.active.length = 81 ∧
      ∃ ts, find_triples g.active = .ok ts ∧ ts ≠ [] := by
  have hn12 : 12 ≤ (Finset.univ : Finset Card).card := by
    rw [card_univ_81]
    omega
  obtain ⟨g1, hdeal, hact1, hst1, hdsc1, hval1, hcard1⟩ :=
    deal_append_spec hf (g := ⟨State.IN_GAME, Finset.univ, [], []⟩) hn12
  have hlen12 : (f (⟨State.IN_GAME, Finset.univ, [], []⟩ : GameState).draw 12).length = 12 :=
    (hf _ 12 hn12).1
  have hg0card : (⟨State.IN_GAME, Finset.univ, [], []⟩ : GameState).draw.card = 81 :=
    card_univ_81
  have hg1card : g1.draw.card = 69 := by omega
  have hInv1 : Inv g1 := by
    refine ⟨?_, ?_, ?_⟩
    · have hthis : g1.draw.val +
          ↑(f (⟨State.IN_GAME, Finset.univ, [], []⟩ : GameState).draw 12) =
          (Finset.univ : Finset Card).val := hval1
      rw [hact1, hdsc1]
      simpa using hthis
    · omega
    · rw [hdsc1]
      rintro s ⟨⟩
  obtain ⟨g2, ext, hrun, hact2, hdsc2, hval2, hInv2, hout⟩ :=
    ensureOptionsFuel_spec hf (g1.draw.card + 1) g1 hInv1 (by omega)
  have hmain : new_game f = some g2 := by
    simp [new_game, hdeal, ensure_options, hrun]
  have hcards : g2.draw.card + ext.length = g1.draw.card := by
    have h := congrArg Multiset.card hval2
    rw [Multiset.card_add, Multiset.coe_card] at h
    exact h
  have hdisc2 : g2.discard = [] := by rw [hdsc2, hdsc1]
  have hlen2 : g2.active.length = 12 + ext.length := by
    rw [hact2, hact1, List.length_append, List.length_append, List.length_nil, hlen12]
  have h81 : (Finset.univ : Finset Card).card = 81 := card_univ_81
  rcases hout with ⟨hst2, ts, hts, htsne⟩ | ⟨hgo, hdraw0, hempty⟩
  · refine ⟨g2, hmain, hInv2, by rw [hst2, hst1], ?_, ?_, hdisc2, ?_, ts, hts, htsne⟩
    · omega
    · have h3 := hInv2.2.1
      omega
    · omega
  · exfalso
    have hdrawe : g2.draw = ∅ := Finset.card_eq_zero.mp hdraw0
    have hcov : (↑g2.active : Multiset Card) = (Finset.univ : Finset Card).val := by
      have h := hInv2.1
      rw [hdisc2, hdrawe] at h
      simpa using h
    have hmemall : ∀ x : Card, x ∈ g2.active := by
      intro x
      have : x ∈ (↑g2.active : Multiset Card) := by
        rw [hcov]
        exact Finset.mem_univ x
      exact this
    exact find_triples_nonempty hempty hInv2.active_nodup
      (hmemall ⟨.ONE, .RED, .EMPTY, .SQUIGGLE⟩) (hmemall ⟨.TWO, .RED, .EMPTY, .SQUIGGLE⟩)
      (hmemall ⟨.THREE, .RED, .EMPTY, .SQUIGGLE⟩) complement_one_two_three rfl

/-- C5 (amended): starting a new game under any valid sampler yields a state
IN_GAME whose active layout holds at least 12 cards — a multiple of 3 —
among which at least one valid triple exists, with the draw pile holding the
remaining `81 - |active|` cards and an empty discard.  Exactly 12 active
cards is not guaranteed: when the first 12 dealt cards contain no triple,
replenishment deals further batches of 3 (see
`new_game_not_always_twelve`). -/
theorem new_game_spec (f : Sampler) (hf : IsValidSampler f) :
    ∃ g, new_game f = some g ∧ g.state = State.IN_GAME ∧
      12 ≤ g.active.length ∧ g.active.length % 3 = 0 ∧
      g.discard = [] ∧ g.draw.card + g.active.length = 81 ∧
      ∃ ts, find_triples g.active = .ok ts ∧ ts ≠ [] := by
  obtain ⟨g, h1, -, h2, h3, h4, h5, h6, h7⟩ := new_game_full f hf
  exact ⟨g, h1, h2, h3, h4, h5, h6, h7⟩

theorem new_game_spec_witness :
    IsValidSampler defaultSample ∧
    ∃ g, new_game defaultSample = some g ∧ g.state = State.IN_GAME ∧
      12 ≤ g.active.length ∧ g.active.length % 3 = 0 ∧
      g.discard = [] ∧ g.draw.card + g.active.length = 81 ∧
      ∃ ts, find_triples g.active = .ok ts ∧ ts ≠ [] :=
  ⟨defaultSample_valid, new_game_spec defaultSample defaultSample_valid⟩

/-- A 12-card cap of the deck: all four coordinates restricted to the first
two values of their dimension (minus four cards).  Any two of these cards
differ somewhere, so their complement takes the third value there and lies
outside the collection: no valid triple exists among them. -/
def cap12 : List Card :=
  [⟨.ONE, .RED, .EMPTY, .SQUIGGLE⟩, ⟨.ONE, .RED, .EMPTY, .DIAMOND⟩,
   ⟨.ONE, .RED, .FILLED, .SQUIGGLE⟩, ⟨.ONE, .RED, .FILLED, .DIAMOND⟩,
   ⟨.ONE, .GREEN, .EMPTY, .SQUIGGLE⟩, ⟨.ONE, .GREEN, .EMPTY, .DIAMOND⟩,
   ⟨.ONE, .GREEN, .FILLED, .SQUIGGLE⟩, ⟨.ONE, .GREEN, .FILLED, .DIAMOND⟩,
   ⟨.TWO, .RED, .EMPTY, .SQUIGGLE⟩, ⟨.TWO, .RED, .EMPTY, .DIAMOND⟩,
   ⟨.TWO, .RED, .FILLED, .SQUIGGLE⟩, ⟨.TWO, .RED, .FILLED, .DIAMOND⟩]

/-- A valid set disjoint from `cap12`, dealt as the replacement batch. -/
def extra3 : List Card :=
  [⟨.ONE, .RED, .EMPTY, .OVAL⟩, ⟨.ONE, .RED, .FILLED, .OVAL⟩,
   ⟨.ONE, .RED, .HATCHED, .OVAL⟩]

/-- A valid sampler whose first deal is the 12-card cap `cap12` (no valid
triple), forcing the replenishment rule to deal a further batch of 3. -/
def capSampler : Sampler := fun d n =>
  if d = Finset.univ ∧ n = 12 then cap12
  else if d = Finset.univ \ cap12.toFinset ∧ n = 3 then extra3
  else defaultSample d n

lemma capSampler_valid : IsValidSampler capSampler := by
  intro d n hn
  by_cases h1 : d = Finset.univ ∧ n = 12
  · obtain ⟨he, rfl⟩ := h1
    subst he
    simp only [capSampler, if_pos (⟨rfl, rfl⟩ : Finset.univ = Finset.univ ∧ 12 = 12)]
    exact ⟨by decide, by decide, fun x _ => Finset.mem_univ x⟩
  · by_cases h2 : d = Finset.univ \ cap12.toFinset ∧ n = 3
    · obtain ⟨he, rfl⟩ := h2
      subst he
      simp only [capSampler, if_neg h1,
        if_pos (⟨rfl, rfl⟩ : Finset.univ \ cap12.toFinset = Finset.univ \ cap12.toFinset ∧
          3 = 3)]
      refine ⟨by decide, by decide, ?_⟩
      intro x hx
      fin_cases hx <;> decide
    · simp only [capSampler, if_neg h1, if_neg h2]
      exact defaultSample_valid d n hn

/-- C5 is refuted as stated: `capSampler` is a valid random-draw model whose
first 12 cards contain no triple, and the resulting new game holds 15 active
cards, not 12. -/
theorem new_game_not_always_twelve :
    IsValidSampler capSampler ∧
    ∃ g, new_game capSampler = some g ∧ g.active.length = 15 :=
  ⟨capSampler_valid,
    (new_game capSampler).getD ⟨State.IN_GAME, ∅, [], []⟩, by decide, by decide⟩

/-! ### Positional surgery on the active layout -/

lemma eraseIdx_append_plus {α : Type} (A : List α) (l : List α) (n : Nat) :
    (A ++ l).eraseIdx (A.length + n) = A ++ l.eraseIdx n := by
  induction A with
  | nil => simp
  | cons hd tl ih =>
    simp only [List.cons_append, List.length_cons]
    rw [show tl.length + 1 + n = (tl.length + n) + 1 by omega]
    rw [List.eraseIdx_cons_succ, ih]

lemma pyInsert_cons_succ {α : Type} (a : α) (l : List α) (n : Nat) (v : α) :
    pyInsert (a :: l) (n + 1) v = a :: pyInsert l n v := by
  simp [pyInsert]

lemma pyInsert_append_plus {α : Type} (A : List α) (l : List α) (n : Nat) (v : α) :
    pyInsert (A ++ l) (A.length + n) v = A ++ pyInsert l n v := by
  induction A with
  | nil => simp
  | cons hd tl ih =>
    simp only [List.cons_append, List.length_cons]
    rw [show tl.length + 1 + n = (tl.length + n) + 1 by omega]
    rw [pyInsert_cons_succ, ih]

/-- Erasing at the boundary of an append drops the marked head. -/
lemma eraseIdx_append_self {α : Type} (A : List α) (x : α) (l : List α) :
    (A ++ x :: l).eraseIdx A.length = A ++ l := by
  have h := eraseIdx_append_plus A (x :: l) 0
  simpa using h

/-- Inserting at the boundary of an append places the value at the seam. -/
lemma pyInsert_append_self {α : Type} (A : List α) (l : List α) (v : α) :
    pyInsert (A ++ l) A.length v = A ++ v :: l := by
  have h := pyInsert_append_plus A l 0 v
  simpa [pyInsert] using h

/-- Popping the three sorted positions in descending order removes exactly
the three marked cards. -/
lemma pop3_eq (A B C D : List Card) (x y z : Card) :
    [A.length + B.length + C.length + 2, A.length + B.length + 1, A.length].foldl
      (fun l p => l.eraseIdx p) (A ++ x :: (B ++ y :: (C ++ z :: D)))
      = A ++ (B ++ (C ++ D)) := by
  simp only [List.foldl_cons, List.foldl_nil]
  rw [show A.length + B.length + C.length + 2 =
        A.length + ((B.length + (C.length + 1)) + 1) by omega,
    eraseIdx_append_plus, List.eraseIdx_cons_succ, eraseIdx_append_plus,
    List.eraseIdx_cons_succ, eraseIdx_append_self,
    show A.length + B.length + 1 = A.length + (B.length + 1) by omega,
    eraseIdx_append_plus, List.eraseIdx_cons_succ, eraseIdx_append_self,
    eraseIdx_append_self]

/-- Re-inserting the three replacements at the recorded positions in
ascending order puts them exactly into the vacated slots. -/
lemma insert3_eq (A B C D : List Card) (d0 d1 d2 : Card) :
    [(A.length, d0), (A.length + B.length + 1, d1),
      (A.length + B.length + C.length + 2, d2)].foldl
      (fun l pc => pyInsert l pc.1 pc.2) (A ++ (B ++ (C ++ D)))
      = A ++ d0 :: (B ++ d1 :: (C ++ d2 :: D)) := by
  simp only [List.foldl_cons, List.foldl_nil]
  rw [pyInsert_append_self,
    show A.length + B.length + 1 = A.length + (B.length + 1) by omega,
    pyInsert_append_plus, pyInsert_cons_succ, pyInsert_append_self,
    show A.length + B.length + C.length + 2 =
      A.length + ((B.length + (C.length + 1)) + 1) by omega,
    pyInsert_append_plus, pyInsert_cons_succ, pyInsert_append_plus,
    pyInsert_cons_succ, pyInsert_append_self]

lemma split_at3 {l : List Card} {i j k : Nat} {x y z : Card} (hij : i < j) (hjk : j < k)
    (hx : l[i]? = some x) (hy : l[j]? = some y) (hz : l[k]? = some z) :
    ∃ A B C D, l = A ++ x :: (B ++ y :: (C ++ z :: D)) ∧
      A.length = i ∧ A.length + B.length + 1 = j ∧
      A.length + B.length + C.length + 2 = k := by
  obtain ⟨A, B1, hAB, hA, hB1⟩ := split_at1 hx
  have hyB : B1[j - i - 1]? = some y := by
    rw [hB1, List.getElem?_drop, show i + 1 + (j - i - 1) = j by omega]
    exact hy
  obtain ⟨B, C1, hBC, hB, hC1⟩ := split_at1 hyB
  have hzC : C1[k - j - 1]? = some z := by
    rw [hC1, hB1, List.drop_drop, List.getElem?_drop,
      show i + 1 + (j - i - 1 + 1) + (k - j - 1) = k by omega]
    exact hz
  obtain ⟨C, D, hCD, hC, hD⟩ := split_at1 hzC
  refine ⟨A, B, C, D, ?_, hA, by omega, by omega⟩
  rw [hAB, hBC, hCD]

lemma indexOf_getElem? {l : List Card} {a : Card} (ha : a ∈ l) :
    l[l.indexOf a]? = some a := by
  rw [← List.get?_eq_getElem?]
  exact List.indexOf_get? ha

/-- Decomposition of a duplicate-free layout at the sorted positions of
three distinct members: the layout splits into four segments around the
three cards in position order, and `sort3` of the raw indices returns
exactly those positions. -/
lemma active_decomp {l : List Card} (hnd : l.Nodup) {a b c : Card}
    (hab : a ≠ b) (hac : a ≠ c) (hbc : b ≠ c)
    (ha : a ∈ l) (hb : b ∈ l) (hc : c ∈ l) :
    ∃ A B C D x y z,
      l = A ++ x :: (B ++ y :: (C ++ z :: D)) ∧
      ({x, y, z} : Finset Card) = {a, b, c} ∧
      x ≠ y ∧ x ≠ z ∧ y ≠ z ∧
      sort3 (l.indexOf a) (l.indexOf b) (l.indexOf c) =
        [A.length, A.length + B.length + 1, A.length + B.length + C.length + 2] := by
  have hia : l[l.indexOf a]? = some a := indexOf_getElem? ha
  have hib : l[l.indexOf b]? = some b := indexOf_getElem? hb
  have hic : l[l.indexOf c]? = some c := indexOf_getElem? hc
  have hiab : l.indexOf a ≠ l.indexOf b := fun he =>
    hab (by rw [he] at hia; exact Option.some.inj (hia.symm.trans hib))
  have hiac : l.indexOf a ≠ l.indexOf c := fun he =>
    hac (by rw [he] at hia; exact Option.some.inj (hia.symm.trans hic))
  have hibc : l.indexOf b ≠ l.indexOf c := fun he =>
    hbc (by rw [he] at hib; exact Option.some.inj (hib.symm.trans hic))
  rcases Nat.lt_or_ge (l.indexOf a) (l.indexOf b) with h1 | h1
  · rcases Nat.lt_or_ge (l.indexOf b) (l.indexOf c) with h2 | h2
    · obtain ⟨A, B, C, D, hsplit, e1, e2, e3⟩ := split_at3 h1 h2 hia hib hic
      refine ⟨A, B, C, D, a, b, c, hsplit, rfl, hab, hac, hbc, ?_⟩
      unfold sort3
      rw [if_pos (Nat.le_of_lt h1), if_pos (Nat.le_of_lt h2), ← e1, ← e2, ← e3]
    · rcases Nat.lt_or_ge (l.indexOf a) (l.indexOf c) with h3 | h3
      · have h4 : l.indexOf c < l.indexOf b := by omega
        obtain ⟨A, B, C, D, hsplit, e1, e2, e3⟩ := split_at3 h3 h4 hia hic hib
        refine ⟨A, B, C, D, a, c, b, hsplit, ?_, hac, hab, fun h => hbc h.symm, ?_⟩
        · ext w
          simp only [Finset.mem_insert, Finset.mem_singleton]
          tauto
        · unfold sort3
          rw [if_pos (Nat.le_of_lt h1), if_neg (by omega), if_pos (Nat.le_of_lt h3),
            ← e1, ← e2, ← e3]
      · have h4 : l.indexOf c < l.indexOf a := by omega
        obtain ⟨A, B, C, D, hsplit, e1, e2, e3⟩ := split_at3 h4 h1 hic hia hib
        refine ⟨A, B, C, D, c, a, b, hsplit, ?_, fun h => hac h.symm,
          fun h => hbc h.symm, hab, ?_⟩
        · ext w
          simp only [Finset.mem_insert, Finset.mem_singleton]
          tauto
        · unfold sort3
          rw [if_pos (Nat.le_of_lt h1), if_neg (by omega), if_neg (by omega),
            ← e1, ← e2, ← e3]
  · have h1' : l.indexOf b < l.indexOf a := by omega
    rcases Nat.lt_or_ge (l.indexOf a) (l.indexOf c) with h2 | h2
    · obtain ⟨A, B, C, D, hsplit, e1, e2, e3⟩ := split_at3 h1' h2 hib hia hic
      refine ⟨A, B, C, D, b, a, c, hsplit, ?_, fun h => hab h.symm, hbc, hac, ?_⟩
      · ext w
        simp only [Finset.mem_insert, Finset.mem_singleton]
        tauto
      · unfold sort3
        rw [if_neg (by omega), if_pos (Nat.le_of_lt h2), ← e1, ← e2, ← e3]
    · rcases Nat.lt_or_ge (l.indexOf b) (l.indexOf c) with h3 | h3
      · have h4 : l.indexOf c < l.indexOf a := by omega
        obtain ⟨A, B, C, D, hsplit, e1, e2, e3⟩ := split_at3 h3 h4 hib hic hia
        refine ⟨A, B, C, D, b, c, a, hsplit, ?_, hbc, fun h => hab h.symm,
          fun h => hac h.symm, ?_⟩
        · ext w
          simp only [Finset.mem_insert, Finset.mem_singleton]
          tauto
        · unfold sort3
          rw [if_neg (by omega), if_neg (by omega), if_pos (Nat.le_of_lt h3),
            ← e1, ← e2, ← e3]
      · have h4 : l.indexOf c < l.indexOf b := by omega
        have h5 : l.indexOf b < l.indexOf a := h1'
        obtain ⟨A, B, C, D, hsplit, e1, e2, e3⟩ := split_at3 h4 h5 hic hib hia
        refine ⟨A, B, C, D, c, b, a, hsplit, ?_, fun h => hbc h.symm,
          fun h => hac h.symm, fun h => hab h.symm, ?_⟩
        · ext w
          simp only [Finset.mem_insert, Finset.mem_singleton]
          tauto
        · unfold sort3
          rw [if_neg (by omega), if_neg (by omega), if_neg (by omega),
            ← e1, ← e2, ← e3]

lemma perm_split3 (A B C D : List Card) (x y z : Card) :
    (A ++ x :: (B ++ y :: (C ++ z :: D))).Perm
      (x :: y :: z :: (A ++ (B ++ (C ++ D)))) := by
  have e1 : A ++ (B ++ y :: (C ++ z :: D)) = (A ++ B) ++ y :: (C ++ z :: D) := by
    simp [List.append_assoc]
  have e2 : (A ++ B) ++ (C ++ z :: D) = ((A ++ B) ++ C) ++ z :: D := by
    simp [List.append_assoc]
  have e3 : ((A ++ B) ++ C) ++ D = A ++ (B ++ (C ++ D)) := by
    simp [List.append_assoc]
  refine List.Perm.trans List.perm_middle ?_
  refine List.Perm.cons x ?_
  rw [e1]
  refine List.Perm.trans List.perm_middle ?_
  refine List.Perm.cons y ?_
  rw [e2]
  refine List.Perm.trans List.perm_middle ?_
  refine List.Perm.cons z ?_
  rw [e3]

lemma coe_split3 (A B C D : List Card) (x y z : Card) :
    (↑(A ++ x :: (B ++ y :: (C ++ z :: D))) : Multiset Card)
      = x ::ₘ y ::ₘ z ::ₘ ↑(A ++ (B ++ (C ++ D))) := by
  have h := Multiset.coe_eq_coe.mpr (perm_split3 A B C D x y z)
  rw [h, ← Multiset.cons_coe, ← Multiset.cons_coe, ← Multiset.cons_coe]

lemma triple_val {x y z : Card} (hxy : x ≠ y) (hxz : x ≠ z) (hyz : y ≠ z) :
    ({x, y, z} : Finset Card).val = x ::ₘ y ::ₘ z ::ₘ 0 := by
  rw [show ({x, y, z} : Finset Card) = insert x (insert y {z}) from rfl]
  rw [Finset.insert_val_of_not_mem (by simp [hxy, hxz]),
    Finset.insert_val_of_not_mem (by simp [hyz])]
  rfl

lemma card_triple_eq_three {a b c : Card} (hab : a ≠ b) (hac : a ≠ c) (hbc : b ≠ c) :
    ({a, b, c} : Finset Card).card = 3 := by
  show (({a, b, c} : Finset Card)).val.card = 3
  rw [triple_val hab hac hbc]
  rfl

/-- Dealing with explicit replacement positions: same pile bookkeeping as
`deal_append_spec`, with the layout given by the insertion fold. -/
lemma deal_insert_spec {f : Sampler} (hf : IsValidSampler f) {g : GameState} {n : Nat}
    (ps : List Nat) (hn : n ≤ g.draw.card) :
    ∃ g2, deal f g n (some ps) = some g2 ∧
      g2.active = (ps.zip (f g.draw n)).foldl
        (fun l pc => pyInsert l pc.1 pc.2) g.active ∧
      g2.state = g.state ∧ g2.discard = g.discard ∧
      g2.draw.val + ↑(f g.draw n) = g.draw.val ∧
      g2.draw.card + n = g.draw.card := by
  obtain ⟨hlen, hnd, hmem⟩ := hf g.draw n hn
  have hsub : (f g.draw n).toFinset ⊆ g.draw := fun u hu =>
    hmem u (List.mem_toFinset.mp hu)
  have hval : ((f g.draw n).toFinset).val = (↑(f g.draw n) : Multiset Card) := by
    rw [List.toFinset_val, List.dedup_eq_self.mpr hnd]
  have hle : (↑(f g.draw n) : Multiset Card) ≤ g.draw.val := by
    rw [← hval]
    exact Finset.val_le_iff.mpr hsub
  refine ⟨GameState.mk g.state (g.draw \ (f g.draw n).toFinset)
    ((ps.zip (f g.draw n)).foldl (fun l pc => pyInsert l pc.1 pc.2) g.active)
    g.discard, ?_, rfl, rfl, rfl, ?_, ?_⟩
  · simp only [deal, if_pos hn]
  · show (g.draw \ (f g.draw n).toFinset).val + ↑(f g.draw n) = g.draw.val
    rw [Finset.sdiff_val, hval]
    exact tsub_add_cancel_of_le hle
  · show (g.draw \ (f g.draw n).toFinset).card + n = g.draw.card
    rw [Finset.card_sdiff hsub, List.toFinset_card_of_nodup hnd, hlen]
    omega

/-- The mutating tail of a successful removal, characterised: the layout
decomposes around the three cards, the triple joins the discard, the three
cards leave the layout, and — exactly when the pile is non-empty and the
layout dropped below 12 — three replacements fill the vacated slots while
every other card keeps its positional slot.  The conservation invariant is
preserved throughout. -/
lemma removeCore_spec {f : Sampler} (hf : IsValidSampler f) {g : GameState}
    (hg : Inv g) {a b c : Card}
    (hab : a ≠ b) (hac : a ≠ c) (hbc : b ≠ c)
    (ha : a ∈ g.active) (hb : b ∈ g.active) (hc : c ∈ g.active) :
    ∃ gmid A B C D x y z,
      removeCore f g a b c = some gmid ∧
      g.active = A ++ x :: (B ++ y :: (C ++ z :: D)) ∧
      ({x, y, z} : Finset Card) = {a, b, c} ∧
      gmid.discard = g.discard ++ [({a, b, c} : Finset Card)] ∧
      gmid.state = g.state ∧
      Inv gmid ∧
      ((0 < g.draw.card ∧ g.active.length - 3 < 12 →
          ∃ d0 d1 d2, f g.draw 3 = [d0, d1, d2] ∧
            gmid.active = A ++ d0 :: (B ++ d1 :: (C ++ d2 :: D)) ∧
            gmid.draw.val + (d0 ::ₘ d1 ::ₘ d2 ::ₘ 0) = g.draw.val ∧
            gmid.draw.card + 3 = g.draw.card) ∧
        (¬(0 < g.draw.card ∧ g.active.length - 3 < 12) →
          gmid.active = A ++ (B ++ (C ++ D)) ∧ gmid.draw = g.draw)) := by
  obtain ⟨A, B, C, D, x, y, z, hsplit, hset, hxy, hxz, hyz, hsort⟩ :=
    active_decomp hg.active_nodup hab hac hbc ha hb hc
  have hpop : [A.length + B.length + C.length + 2, A.length + B.length + 1,
      A.length].foldl (fun l p => l.eraseIdx p) g.active = A ++ (B ++ (C ++ D)) := by
    rw [hsplit]
    exact pop3_eq A B C D x y z
  have hpoplen : (A ++ (B ++ (C ++ D))).length + 3 = g.active.length := by
    rw [hsplit]
    simp only [List.length_append, List.length_cons]
    omega
  have habcval : ({a, b, c} : Finset Card).val = x ::ₘ y ::ₘ z ::ₘ 0 := by
    rw [← hset]
    exact triple_val hxy hxz hyz
  have hcore : removeCore f g a b c =
      (if 0 < g.draw.card ∧ (A ++ (B ++ (C ++ D))).length < 12 then
        deal f (GameState.mk g.state g.draw (A ++ (B ++ (C ++ D)))
          (g.discard ++ [({a, b, c} : Finset Card)])) 3
          (some [A.length, A.length + B.length + 1,
            A.length + B.length + C.length + 2])
      else some (GameState.mk g.state g.draw (A ++ (B ++ (C ++ D)))
        (g.discard ++ [({a, b, c} : Finset Card)]))) := by
    simp only [removeCore, hsort]
    rw [show ([A.length, A.length + B.length + 1,
        A.length + B.length + C.length + 2] : List Nat).reverse
      = [A.length + B.length + C.length + 2, A.length + B.length + 1, A.length]
      from rfl]
    rw [hpop]
  have hcond_iff : (0 < g.draw.card ∧ (A ++ (B ++ (C ++ D))).length < 12) ↔
      (0 < g.draw.card ∧ g.active.length - 3 < 12) := by
    constructor <;> intro h <;> exact ⟨h.1, by omega⟩
  rw [if_congr hcond_iff rfl rfl] at hcore
  have hdiscard3 : ∀ s ∈ g.discard ++ [({a, b, c} : Finset Card)], s.card = 3 := by
    intro s hs
    rcases List.mem_append.mp hs with hs | hs
    · exact hg.2.2 s hs
    · rw [List.mem_singleton.mp hs]
      exact card_triple_eq_three hab hac hbc
  by_cases hcond : 0 < g.draw.card ∧ g.active.length - 3 < 12
  · rw [if_pos hcond] at hcore
    have h3 : 3 ≤ g.draw.card := Nat.le_of_dvd hcond.1 hg.2.1
    obtain ⟨g3, hdeal, hact3, hst3, hdsc3, hval3, hcard3⟩ :=
      deal_insert_spec hf (g := GameState.mk g.state g.draw (A ++ (B ++ (C ++ D)))
        (g.discard ++ [({a, b, c} : Finset Card)]))
        [A.length, A.length + B.length + 1, A.length + B.length + C.length + 2] h3
    obtain ⟨d0, d1, d2, hdealt⟩ := List.length_eq_three.mp (hf g.draw 3 h3).1
    have hact3' : g3.active = A ++ d0 :: (B ++ d1 :: (C ++ d2 :: D)) := by
      rw [hact3, hdealt]
      rw [show ([A.length, A.length + B.length + 1,
          A.length + B.length + C.length + 2] : List Nat).zip [d0, d1, d2]
        = [(A.length, d0), (A.length + B.length + 1, d1),
            (A.length + B.length + C.length + 2, d2)] from rfl]
      exact insert3_eq A B C D d0 d1 d2
    have hval3' : g3.draw.val + (d0 ::ₘ d1 ::ₘ d2 ::ₘ 0) = g.draw.val := by
      have h := hval3
      rw [hdealt] at h
      exact h
    refine ⟨g3, A, B, C, D, x, y, z, ?_, hsplit, hset, hdsc3, hst3, ?_, ?_, ?_⟩
    · rw [hcore, hdeal]
    · refine ⟨?_, ?_, ?_⟩
      · rw [hact3', hdsc3]
        have h0 := hg.1
        rw [hsplit, coe_split3, ← hval3'] at h0
        rw [coe_split3, List.map_append, List.sum_append]
        simp only [List.map_cons, List.map_nil, List.sum_cons, List.sum_nil, habcval]
        rw [← h0]
        simp only [← Multiset.singleton_add]
        abel
      · have h1 := hg.2.1
        have h2 : g3.draw.card + 3 = g.draw.card := hcard3
        omega
      · rw [hdsc3]
        exact hdiscard3
    · intro _
      exact ⟨d0, d1, d2, hdealt, hact3', hval3', hcard3⟩
    · intro hc2
      exact absurd hcond hc2
  · rw [if_neg hcond] at hcore
    refine ⟨GameState.mk g.state g.draw (A ++ (B ++ (C ++ D)))
      (g.discard ++ [({a, b, c} : Finset Card)]), A, B, C, D, x, y, z,
      hcore, hsplit, hset, rfl, rfl, ?_, ?_, ?_⟩
    · refine ⟨?_, hg.2.1, hdiscard3⟩
      show g.draw.val + ↑(A ++ (B ++ (C ++ D))) +
        (List.map Finset.val (g.discard ++ [({a, b, c} : Finset Card)])).sum
        = (Finset.univ : Finset Card).val
      have h0 := hg.1
      rw [hsplit, coe_split3] at h0
      rw [List.map_append, List.sum_append]
      simp only [List.map_cons, List.map_nil, List.sum_cons, List.sum_nil, habcval]
      rw [← h0]
      simp only [← Multiset.singleton_add]
      abel
    · intro hc2
      exact absurd hc2 hcond
    · intro _
      exact ⟨rfl, rfl⟩

/-! ### `remove_set` layer -/

lemma card3_distinct {a b c : Card} (h : ({a, b, c} : Finset Card).card = 3) :
    a ≠ b ∧ a ≠ c ∧ b ≠ c := by
  refine ⟨?_, ?_, ?_⟩ <;> rintro rfl
  · have he : ({a, a, c} : Finset Card) = {a, c} := by
      ext w
      simp only [Finset.mem_insert, Finset.mem_singleton]
      tauto
    rw [he] at h
    have h1 := Finset.card_insert_le a ({c} : Finset Card)
    have h2 : ({c} : Finset Card).card = 1 := Finset.card_singleton c
    omega
  · have he : ({a, b, a} : Finset Card) = {a, b} := by
      ext w
      simp only [Finset.mem_insert, Finset.mem_singleton]
      tauto
    rw [he] at h
    have h1 := Finset.card_insert_le a ({b} : Finset Card)
    have h2 : ({b} : Finset Card).card = 1 := Finset.card_singleton b
    omega
  · have he : ({a, b, b} : Finset Card) = {a, b} := by
      ext w
      simp only [Finset.mem_insert, Finset.mem_singleton]
      tauto
    rw [he] at h
    have h1 := Finset.card_insert_le a ({b} : Finset Card)
    have h2 : ({b} : Finset Card).card = 1 := Finset.card_singleton b
    omega

lemma card_triple_iff {a b c : Card} :
    ({a, b, c} : Finset Card).card = 3 ↔ (a ≠ b ∧ a ≠ c ∧ b ≠ c) :=
  ⟨card3_distinct, fun ⟨hab, hac, hbc⟩ => card_triple_eq_three hab hac hbc⟩

/-- A successful `remove_set` call implies all four guards passed. -/
lemma remove_set_ok_inv {f : Sampler} {g g2 : GameState} {a b c : Card}
    (h : remove_set f g a b c = .ok g2) :
    g.state ≠ State.GAME_OVER ∧ ({a, b, c} : Finset Card).card = 3 ∧
    (a ∈ g.active ∧ b ∈ g.active ∧ c ∈ g.active) ∧ Card.complement a b = some c := by
  unfold remove_set at h
  by_cases h1 : g.state = State.GAME_OVER
  · rw [if_pos h1] at h
    cases h
  · rw [if_neg h1] at h
    by_cases h2 : ({a, b, c} : Finset Card).card ≠ 3
    · rw [if_pos h2] at h
      cases h
    · rw [if_neg h2] at h
      by_cases h3 : ¬(a ∈ g.active ∧ b ∈ g.active ∧ c ∈ g.active)
      · rw [if_pos h3] at h
        cases h
      · rw [if_neg h3] at h
        by_cases h4 : Card.complement a b ≠ some c
        · rw [if_pos h4] at h
          cases h
        · exact ⟨h1, not_not.mp h2, not_not.mp h3, not_not.mp h4⟩

/-- With all four guards passing, `remove_set` is the removal followed by
replenishment. -/
lemma remove_set_guards_pass {f : Sampler} {g : GameState} {a b c : Card}
    (h1 : g.state ≠ State.GAME_OVER) (h2 : ({a, b, c} : Finset Card).card = 3)
    (h3 : a ∈ g.active ∧ b ∈ g.active ∧ c ∈ g.active)
    (h4 : Card.complement a b = some c) :
    remove_set f g a b c = (match removeCore f g a b c with
      | none => .error .internalError
      | some gmid =>
        match ensure_options f gmid with
        | none => .error .internalError
        | some g2 => .ok g2) := by
  unfold remove_set
  rw [if_neg h1, if_neg (not_not_intro h2), if_neg (not_not_intro h3),
    if_neg (not_not_intro h4)]

/-- A fully-guarded successful removal: the resulting state, its invariant,
its discard, and its lifecycle outcome. -/
lemma remove_set_ok {f : Sampler} (hf : IsValidSampler f) {g : GameState} (hg : Inv g)
    (hst : g.state = State.IN_GAME) {a b c : Card}
    (hab : a ≠ b) (hac : a ≠ c) (hbc : b ≠ c)
    (ha : a ∈ g.active) (hb : b ∈ g.active) (hc : c ∈ g.active)
    (hcomp : Card.complement a b = some c) :
    ∃ gmid g2, removeCore f g a b c = some gmid ∧ ensure_options f gmid = some g2 ∧
      remove_set f g a b c = .ok g2 ∧ Inv g2 ∧
      g2.discard = g.discard ++ [({a, b, c} : Finset Card)] ∧
      (g2.state = State.IN_GAME ∨
        (g2.state = State.GAME_OVER ∧ g2.draw.card = 0 ∧
          find_triples g2.active = .ok [])) := by
  obtain ⟨gmid, A, B, C, D, x, y, z, hmid, hsplit, hset, hdsc, hstmid, hInvMid, -, -⟩ :=
    removeCore_spec hf hg hab hac hbc ha hb hc
  obtain ⟨g2, ext, hrun, hact2, hdsc2, hval2, hInv2, hout⟩ :=
    ensureOptionsFuel_spec hf (gmid.draw.card + 1) gmid hInvMid (by omega)
  have hens : ensure_options f gmid = some g2 := hrun
  have hne : g.state ≠ State.GAME_OVER := by
    rw [hst]
    intro hx
    cases hx
  have hok : remove_set f g a b c = .ok g2 := by
    rw [remove_set_guards_pass hne (card_triple_eq_three hab hac hbc) ⟨ha, hb, hc⟩ hcomp]
    simp only [hmid, hens]
  refine ⟨gmid, g2, hmid, hens, hok, hInv2, by rw [hdsc2, hdsc], ?_⟩
  rcases hout with ⟨hsame, -⟩ | ⟨hgo, hdraw0, hempty⟩
  · exact Or.inl (by rw [hsame, hstmid, hst])
  · exact Or.inr ⟨hgo, hdraw0, hempty⟩

lemma new_game_inv {f : Sampler} (hf : IsValidSampler f) {g : GameState}
    (h : new_game f = some g) : Inv g := by
  obtain ⟨g2, h2, hInv, -⟩ := new_game_full f hf
  rw [h] at h2
  cases h2
  exact hInv

lemma remove_set_inv {f : Sampler} (hf : IsValidSampler f) {g g2 : GameState}
    {a b c : Card} (hg : Inv g) (h : remove_set f g a b c = .ok g2) : Inv g2 := by
  obtain ⟨hne, hcard, ⟨ha, hb, hc⟩, hcomp⟩ := remove_set_ok_inv h
  obtain ⟨hab, hac, hbc⟩ := card3_distinct hcard
  have hst : g.state = State.IN_GAME := by
    cases hs : g.state
    · rfl
    · exact absurd hs hne
  obtain ⟨gmid, g2', -, -, hok, hInv2, -, -⟩ :=
    remove_set_ok hf hg hst hab hac hbc ha hb hc hcomp
  rw [h] at hok
  cases hok
  exact hInv2

/-- Every reachable state satisfies the conservation invariant. -/
lemma reachable_inv {f : Sampler} (hf : IsValidSampler f) {g : GameState}
    (hr : Reachable f g) : Inv g := by
  induction hr with
  | init g h => exact new_game_inv hf h
  | step g a b c g2 hr hstep ih => exact remove_set_inv hf ih hstep

/-- C2: a successful `remove_set(a, b, c)` appends the triple as one entry
to the discard and removes exactly those three cards from the active layout;
exactly when the draw pile is non-empty and the post-removal layout holds
fewer than 12 cards, 3 replacement cards are dealt from the pile into the
recorded removed positions in ascending order, so that every other card
keeps its positional slot; the replenishment rule then runs on the
intermediate state and the call returns its result. -/
theorem remove_set_success_spec (f : Sampler) (hf : IsValidSampler f) (g : GameState)
    (hg : Inv g) (hst : g.state = State.IN_GAME) (a b c : Card)
    (hab : a ≠ b) (hac : a ≠ c) (hbc : b ≠ c)
    (ha : a ∈ g.active) (hb : b ∈ g.active) (hc : c ∈ g.active)
    (hcomp : Card.complement a b = some c) :
    ∃ gmid A B C D x y z,
      removeCore f g a b c = some gmid ∧
      (∃ g2, ensure_options f gmid = some g2 ∧ remove_set f g a b c = .ok g2) ∧
      g.active = A ++ x :: (B ++ y :: (C ++ z :: D)) ∧
      ({x, y, z} : Finset Card) = {a, b, c} ∧
      gmid.discard = g.discard ++ [({a, b, c} : Finset Card)] ∧
      gmid.state = g.state ∧
      (0 < g.draw.card ∧ g.active.length - 3 < 12 →
        ∃ d0 d1 d2, f g.draw 3 = [d0, d1, d2] ∧
          gmid.active = A ++ d0 :: (B ++ d1 :: (C ++ d2 :: D)) ∧
          gmid.draw.val + (d0 ::ₘ d1 ::ₘ d2 ::ₘ 0) = g.draw.val ∧
          gmid.draw.card + 3 = g.draw.card) ∧
      (¬(0 < g.draw.card ∧ g.active.length - 3 < 12) →
        gmid.active = A ++ (B ++ (C ++ D)) ∧ gmid.draw = g.draw) := by
  obtain ⟨gmid, A, B, C, D, x, y, z, hmid, hsplit, hset, hdsc, hstmid, hInvMid,
    hdealc, hnodealc⟩ := removeCore_spec hf hg hab hac hbc ha hb hc
  obtain ⟨g2, ext, hrun, -, -, -, -, -⟩ :=
    ensureOptionsFuel_spec hf (gmid.draw.card + 1) gmid hInvMid (by omega)
  have hens : ensure_options f gmid = some g2 := hrun
  have hne : g.state ≠ State.GAME_OVER := by
    rw [hst]
    intro hx
    cases hx
  have hok : remove_set f g a b c = .ok g2 := by
    rw [remove_set_guards_pass hne (card_triple_eq_three hab hac hbc) ⟨ha, hb, hc⟩ hcomp]
    simp only [hmid, hens]
  exact ⟨gmid, A, B, C, D, x, y, z, hmid, ⟨g2, hens, hok⟩, hsplit, hset, hdsc,
    hstmid, hdealc, hnodealc⟩

/-- A concrete mid-game state for witnesses: the first 12 cards of the
enumeration are active (the first three form a valid set), the rest draw. -/
def gW : GameState :=
  ⟨State.IN_GAME, Finset.univ \ (allCards.take 12).toFinset, allCards.take 12, []⟩

theorem remove_set_success_spec_witness :
    IsValidSampler defaultSample ∧ Inv gW ∧ gW.state = State.IN_GAME ∧
    ((⟨.ONE, .RED, .EMPTY, .SQUIGGLE⟩ : Card) ≠ ⟨.ONE, .RED, .EMPTY, .DIAMOND⟩) ∧
    ((⟨.ONE, .RED, .EMPTY, .SQUIGGLE⟩ : Card) ≠ ⟨.ONE, .RED, .EMPTY, .OVAL⟩) ∧
    ((⟨.ONE, .RED, .EMPTY, .DIAMOND⟩ : Card) ≠ ⟨.ONE, .RED, .EMPTY, .OVAL⟩) ∧
    (⟨.ONE, .RED, .EMPTY, .SQUIGGLE⟩ : Card) ∈ gW.active ∧
    (⟨.ONE, .RED, .EMPTY, .DIAMOND⟩ : Card) ∈ gW.active ∧
    (⟨.ONE, .RED, .EMPTY, .OVAL⟩ : Card) ∈ gW.active ∧
    Card.complement ⟨.ONE, .RED, .EMPTY, .SQUIGGLE⟩ ⟨.ONE, .RED, .EMPTY, .DIAMOND⟩ =
      some ⟨.ONE, .RED, .EMPTY, .OVAL⟩ ∧
    (∃ gmid A B C D x y z,
      removeCore defaultSample gW ⟨.ONE, .RED, .EMPTY, .SQUIGGLE⟩
        ⟨.ONE, .RED, .EMPTY, .DIAMOND⟩ ⟨.ONE, .RED, .EMPTY, .OVAL⟩ = some gmid ∧
      (∃ g2, ensure_options defaultSample gmid = some g2 ∧
        remove_set defaultSample gW ⟨.ONE, .RED, .EMPTY, .SQUIGGLE⟩
          ⟨.ONE, .RED, .EMPTY, .DIAMOND⟩ ⟨.ONE, .RED, .EMPTY, .OVAL⟩ = .ok g2) ∧
      gW.active = A ++ x :: (B ++ y :: (C ++ z :: D)) ∧
      ({x, y, z} : Finset Card) = {⟨.ONE, .RED, .EMPTY, .SQUIGGLE⟩,
        ⟨.ONE, .RED, .EMPTY, .DIAMOND⟩, ⟨.ONE, .RED, .EMPTY, .OVAL⟩} ∧
      gmid.discard = gW.discard ++ [({⟨.ONE, .RED, .EMPTY, .SQUIGGLE⟩,
        ⟨.ONE, .RED, .EMPTY, .DIAMOND⟩, ⟨.ONE, .RED, .EMPTY, .OVAL⟩} : Finset Card)] ∧
      gmid.state = gW.state ∧
      (0 < gW.draw.card ∧ gW.active.length - 3 < 12 →
        ∃ d0 d1 d2, defaultSample gW.draw 3 = [d0, d1, d2] ∧
          gmid.active = A ++ d0 :: (B ++ d1 :: (C ++ d2 :: D)) ∧
          gmid.draw.val + (d0 ::ₘ d1 ::ₘ d2 ::ₘ 0) = gW.draw.val ∧
          gmid.draw.card + 3 = gW.draw.card) ∧
      (¬(0 < gW.draw.card ∧ gW.active.length - 3 < 12) →
        gmid.active = A ++ (B ++ (C ++ D)) ∧ gmid.draw = gW.draw)) :=
  ⟨defaultSample_valid, by decide, rfl, by decide, by decide, by decide,
    by decide, by decide, by decide, by decide,
    remove_set_success_spec defaultSample defaultSample_valid gW (by decide) rfl
      ⟨.ONE, .RED, .EMPTY, .SQUIGGLE⟩ ⟨.ONE, .RED, .EMPTY, .DIAMOND⟩
      ⟨.ONE, .RED, .EMPTY, .OVAL⟩ (by decide) (by decide) (by decide)
      (by decide) (by decide) (by decide) (by decide)⟩

/-! ### The partition invariant in Finset form (claim C3) -/

lemma mem_discard_sum (L : List (Finset Card)) (w : Card) :
    w ∈ (L.map Finset.val).sum ↔ ∃ s ∈ L, w ∈ s := by
  induction L with
  | nil => simp
  | cons h t ih =>
    simp only [List.map_cons, List.sum_cons, Multiset.mem_add, ih, List.mem_cons]
    constructor
    · rintro (hw | ⟨s, hs, hws⟩)
      · exact ⟨h, Or.inl rfl, hw⟩
      · exact ⟨s, Or.inr hs, hws⟩
    · rintro ⟨s, rfl | hs, hws⟩
      · exact Or.inl hws
      · exact Or.inr ⟨s, hs, hws⟩

lemma mem_flatten_discard (L : List (Finset Card)) (w : Card) :
    w ∈ L.foldr (· ∪ ·) ∅ ↔ ∃ s ∈ L, w ∈ s := by
  induction L with
  | nil => simp
  | cons h t ih =>
    simp only [List.foldr_cons, Finset.mem_union, ih, List.mem_cons]
    constructor
    · rintro (hw | ⟨s, hs, hws⟩)
      · exact ⟨h, Or.inl rfl, hw⟩
      · exact ⟨s, Or.inr hs, hws⟩
    · rintro ⟨s, rfl | hs, hws⟩
      · exact Or.inl hws
      · exact Or.inr ⟨s, hs, hws⟩

/-- The conservation invariant, read back as Finset-level disjointness and
coverage. -/
lemma Inv.partition_finsets {g : GameState} (hg : Inv g) :
    g.active.Nodup ∧
    Disjoint g.draw g.active.toFinset ∧
    Disjoint g.draw (g.discard.foldr (· ∪ ·) ∅) ∧
    Disjoint g.active.toFinset (g.discard.foldr (· ∪ ·) ∅) ∧
    g.draw ∪ g.active.toFinset ∪ g.discard.foldr (· ∪ ·) ∅ = Finset.univ := by
  have h := hg.1
  have hnodup : (g.draw.val + ↑g.active + (g.discard.map Finset.val).sum).Nodup := by
    rw [h]
    exact Finset.univ.nodup
  obtain ⟨h12nd, hSnd, h12S⟩ := Multiset.nodup_add.mp hnodup
  obtain ⟨hdnd, hand, hda⟩ := Multiset.nodup_add.mp h12nd
  obtain ⟨hdS, haS⟩ := Multiset.disjoint_add_left.mp h12S
  refine ⟨Multiset.coe_nodup.mp hand, ?_, ?_, ?_, ?_⟩
  · rw [Finset.disjoint_left]
    intro w hw hw2
    exact Multiset.disjoint_left.mp hda hw
      (Multiset.mem_coe.mpr (List.mem_toFinset.mp hw2))
  · rw [Finset.disjoint_left]
    intro w hw hw2
    obtain ⟨s, hs, hws⟩ := (mem_flatten_discard _ w).mp hw2
    exact Multiset.disjoint_left.mp hdS hw ((mem_discard_sum _ w).mpr ⟨s, hs, hws⟩)
  · rw [Finset.disjoint_left]
    intro w hw hw2
    obtain ⟨s, hs, hws⟩ := (mem_flatten_discard _ w).mp hw2
    exact Multiset.disjoint_left.mp haS
      (Multiset.mem_coe.mpr (List.mem_toFinset.mp hw))
      ((mem_discard_sum _ w).mpr ⟨s, hs, hws⟩)
  · apply Finset.eq_univ_of_forall
    intro w
    have hw : w ∈ g.draw.val + ↑g.active + (g.discard.map Finset.val).sum := by
      rw [h]
      exact Finset.mem_univ w
    rcases Multiset.mem_add.mp hw with hw | hw
    · rcases Multiset.mem_add.mp hw with hw | hw
      · exact Finset.mem_union_left _ (Finset.mem_union_left _ hw)
      · exact Finset.mem_union_left _ (Finset.mem_union_right _
          (List.mem_toFinset.mpr (Multiset.mem_coe.mp hw)))
    · obtain ⟨s, hs, hws⟩ := (mem_discard_sum _ w).mp hw
      exact Finset.mem_union_right _ ((mem_flatten_discard _ w).mpr ⟨s, hs, hws⟩)

/-- C3: at every observable point of one engine instance — after `new_game`
and after every successful `remove_set` (failing calls raise before touching
the state) — the draw pile, the active layout, and the flattened discard are
pairwise disjoint, their union is the 81-card universe, and the active
layout holds no duplicate card. -/
theorem reachable_partition (f : Sampler) (hf : IsValidSampler f) (g : GameState)
    (hr : Reachable f g) :
    g.active.Nodup ∧
    Disjoint g.draw g.active.toFinset ∧
    Disjoint g.draw (g.discard.foldr (· ∪ ·) ∅) ∧
    Disjoint g.active.toFinset (g.discard.foldr (· ∪ ·) ∅) ∧
    g.draw ∪ g.active.toFinset ∪ g.discard.foldr (· ∪ ·) ∅ = Finset.univ :=
  (reachable_inv hf hr).partition_finsets

/-- The state reached by `new_game` under the deterministic sampler. -/
def gFirst : GameState := (new_game defaultSample).getD ⟨State.IN_GAME, ∅, [], []⟩

lemma new_game_defaultSample : new_game defaultSample = some gFirst := by decide

theorem reachable_partition_witness :
    IsValidSampler defaultSample ∧ Reachable defaultSample gFirst ∧
    (gFirst.active.Nodup ∧
      Disjoint gFirst.draw gFirst.active.toFinset ∧
      Disjoint gFirst.draw (gFirst.discard.foldr (· ∪ ·) ∅) ∧
      Disjoint gFirst.active.toFinset (gFirst.discard.foldr (· ∪ ·) ∅) ∧
      gFirst.draw ∪ gFirst.active.toFinset ∪ gFirst.discard.foldr (· ∪ ·) ∅
        = Finset.univ) :=
  ⟨defaultSample_valid, Reachable.init gFirst new_game_defaultSample,
    reachable_partition defaultSample defaultSample_valid gFirst
      (Reachable.init gFirst new_game_defaultSample)⟩

/-! ### Claim C4: failure modes of `remove_set` -/

lemma remove_set_pass_value {f : Sampler} {g : GameState} {a b c : Card}
    (h1 : g.state ≠ State.GAME_OVER) (h2 : ({a, b, c} : Finset Card).card = 3)
    (h3 : a ∈ g.active ∧ b ∈ g.active ∧ c ∈ g.active)
    (h4 : Card.complement a b = some c) :
    remove_set f g a b c = .error .internalError ∨
      ∃ g2, remove_set f g a b c = .ok g2 := by
  have hgp := remove_set_guards_pass (f := f) h1 h2 h3 h4
  cases hmid : removeCore f g a b c with
  | none => exact Or.inl (by simp only [hgp, hmid])
  | some gmid =>
    cases hens : ensure_options f gmid with
    | none => exact Or.inl (by simp only [hgp, hmid, hens])
    | some g2 => exact Or.inr ⟨g2, by simp only [hgp, hmid, hens]⟩

/-- C4: the four failure kinds of `remove_set` occur exactly under the
listed conditions, checked in this precedence order: `GameOverError` when
the game is over; otherwise `NotDistinctError` when the three cards are not
pairwise structurally distinct; otherwise `NotActiveError` when one of them
is not in the active layout; otherwise `InvalidSetError` when
`complement(a, b) ≠ c`.  Each failing call raises before mutating anything,
so the embedding returns only the error and the caller keeps the unchanged
state. -/
theorem remove_set_failure_modes (f : Sampler) (g : GameState) (a b c : Card) :
    (remove_set f g a b c = .error .gameOver ↔ g.state = State.GAME_OVER) ∧
    (remove_set f g a b c = .error .notDistinct ↔
      g.state ≠ State.GAME_OVER ∧ ¬(a ≠ b ∧ a ≠ c ∧ b ≠ c)) ∧
    (remove_set f g a b c = .error .notActive ↔
      g.state ≠ State.GAME_OVER ∧ (a ≠ b ∧ a ≠ c ∧ b ≠ c) ∧
      ¬(a ∈ g.active ∧ b ∈ g.active ∧ c ∈ g.active)) ∧
    (remove_set f g a b c = .error .invalidSet ↔
      g.state ≠ State.GAME_OVER ∧ (a ≠ b ∧ a ≠ c ∧ b ≠ c) ∧
      (a ∈ g.active ∧ b ∈ g.active ∧ c ∈ g.active) ∧
      Card.complement a b ≠ some c) := by
  by_cases h1 : g.state = State.GAME_OVER
  · have hv : remove_set f g a b c = .error .gameOver := by
      unfold remove_set
      rw [if_pos h1]
    rw [hv]
    refine ⟨⟨fun _ => h1, fun _ => rfl⟩, ?_, ?_, ?_⟩ <;>
      exact ⟨fun he => (nomatch he), fun hcond => absurd h1 hcond.1⟩
  · by_cases h2 : a ≠ b ∧ a ≠ c ∧ b ≠ c
    · by_cases h3 : a ∈ g.active ∧ b ∈ g.active ∧ c ∈ g.active
      · by_cases h4 : Card.complement a b = some c
        · have hval := remove_set_pass_value (f := f) h1 (card_triple_iff.mpr h2) h3 h4
          have hnofour : ∀ e : RemoveError, e ≠ .internalError →
              remove_set f g a b c ≠ .error e := by
            intro e hene he
            rcases hval with hv | ⟨g2, hv⟩
            · rw [hv] at he
              exact hene (Except.error.inj he).symm
            · rw [hv] at he
              cases he
          refine ⟨?_, ?_, ?_, ?_⟩
          · exact ⟨fun he => absurd he (hnofour _ (by intro hx; cases hx)),
              fun hcond => absurd hcond h1⟩
          · exact ⟨fun he => absurd he (hnofour _ (by intro hx; cases hx)),
              fun hcond => absurd h2 hcond.2⟩
          · exact ⟨fun he => absurd he (hnofour _ (by intro hx; cases hx)),
              fun hcond => absurd h3 hcond.2.2⟩
          · exact ⟨fun he => absurd he (hnofour _ (by intro hx; cases hx)),
              fun hcond => absurd h4 hcond.2.2.2⟩
        · have hv : remove_set f g a b c = .error .invalidSet := by
            unfold remove_set
            rw [if_neg h1, if_neg (not_not_intro (card_triple_iff.mpr h2)),
              if_neg (not_not_intro h3), if_pos h4]
          rw [hv]
          refine ⟨?_, ?_, ?_, ?_⟩
          · exact ⟨fun he => (nomatch he), fun hcond => absurd hcond h1⟩
          · exact ⟨fun he => (nomatch he), fun hcond => absurd h2 hcond.2⟩
          · exact ⟨fun he => (nomatch he), fun hcond => absurd h3 hcond.2.2⟩
          · exact ⟨fun _ => ⟨h1, h2, h3, h4⟩, fun _ => rfl⟩
      · have hv : remove_set f g a b c = .error .notActive := by
          unfold remove_set
          rw [if_neg h1, if_neg (not_not_intro (card_triple_iff.mpr h2)), if_pos h3]
        rw [hv]
        refine ⟨?_, ?_, ?_, ?_⟩
        · exact ⟨fun he => (nomatch he), fun hcond => absurd hcond h1⟩
        · exact ⟨fun he => (nomatch he), fun hcond => absurd h2 hcond.2⟩
        · exact ⟨fun _ => ⟨h1, h2, h3⟩, fun _ => rfl⟩
        · exact ⟨fun he => (nomatch he),
            fun hcond => absurd hcond.2.2.1 h3⟩
    · have hcard : ({a, b, c} : Finset Card).card ≠ 3 := fun hce =>
        h2 (card3_distinct hce)
      have hv : remove_set f g a b c = .error .notDistinct := by
        unfold remove_set
        rw [if_neg h1, if_pos hcard]
      rw [hv]
      refine ⟨?_, ?_, ?_, ?_⟩
      · exact ⟨fun he => (nomatch he), fun hcond => absurd hcond h1⟩
      · exact ⟨fun _ => ⟨h1, h2⟩, fun _ => rfl⟩
      · exact ⟨fun he => (nomatch he),
          fun hcond => absurd hcond.2.1 h2⟩
      · exact ⟨fun he => (nomatch he),
          fun hcond => absurd hcond.2.1 h2⟩

/-! ### Claim C8: the lifecycle -/

/-- C8: the lifecycle moves from IN_GAME to GAME_OVER only when the draw
pile is empty and no valid triple remains among the active cards; and once a
state is GAME_OVER, every `remove_set` on it fails with `GameOverError`, so
no operation ever returns the instance to IN_GAME. -/
theorem game_over_transition (f : Sampler) (hf : IsValidSampler f)
    (g g2 h : GameState) (a b c : Card) (hg : Inv g)
    (hgs : g.state = State.IN_GAME) (hstep : remove_set f g a b c = .ok g2)
    (hgo : g2.state = State.GAME_OVER) (hh : h.state = State.GAME_OVER) :
    g2.draw = ∅ ∧ find_triples g2.active = .ok [] ∧
    (∀ x y z, remove_set f h x y z = .error .gameOver) := by
  obtain ⟨hne, hcard, ⟨ha, hb, hc⟩, hcomp⟩ := remove_set_ok_inv hstep
  obtain ⟨hab, hac, hbc⟩ := card3_distinct hcard
  obtain ⟨gmid, g2', -, -, hok, -, -, hout⟩ :=
    remove_set_ok hf hg hgs hab hac hbc ha hb hc hcomp
  rw [hstep] at hok
  cases hok
  rcases hout with hin | ⟨-, hdraw0, hempty⟩
  · rw [hgo] at hin
    cases hin
  · refine ⟨Finset.card_eq_zero.mp hdraw0, hempty, ?_⟩
    intro u v w
    unfold remove_set
    rw [if_pos hh]

/-- The 26 three-card groups of the enumeration other than the first:
a discard pile covering all cards outside the final three-card layout. -/
def endDiscard : List (Finset Card) :=
  (List.range 26).map fun i => ((allCards.drop (3 + 3 * i)).take 3).toFinset

/-- An end-of-game position: empty pile, one valid set on the table. -/
def gEnd : GameState := ⟨State.IN_GAME, ∅, allCards.take 3, endDiscard⟩

/-- The state after resolving the last set of `gEnd`. -/
def gOver : GameState :=
  (remove_set defaultSample gEnd ⟨.ONE, .RED, .EMPTY, .SQUIGGLE⟩
    ⟨.ONE, .RED, .EMPTY, .DIAMOND⟩
    ⟨.ONE, .RED, .EMPTY, .OVAL⟩).toOption.getD ⟨State.IN_GAME, ∅, [], []⟩

theorem game_over_transition_witness :
    IsValidSampler defaultSample ∧ Inv gEnd ∧ gEnd.state = State.IN_GAME ∧
    remove_set defaultSample gEnd ⟨.ONE, .RED, .EMPTY, .SQUIGGLE⟩
      ⟨.ONE, .RED, .EMPTY, .DIAMOND⟩ ⟨.ONE, .RED, .EMPTY, .OVAL⟩ = .ok gOver ∧
    gOver.state = State.GAME_OVER ∧
    (gOver.draw = ∅ ∧ find_triples gOver.active = .ok [] ∧
      ∀ x y z, remove_set defaultSample gOver x y z = .error .gameOver) :=
  ⟨defaultSample_valid, by decide, rfl, by rfl, rfl,
    game_over_transition defaultSample defaultSample_valid gEnd gOver gOver
      ⟨.ONE, .RED, .EMPTY, .SQUIGGLE⟩ ⟨.ONE, .RED, .EMPTY, .DIAMOND⟩
      ⟨.ONE, .RED, .EMPTY, .OVAL⟩ (by decide) rfl (by rfl) rfl rfl⟩

/-! ### Claim C10: pile size and sampling safety -/

lemma remove_set_no_internal {f : Sampler} (hf : IsValidSampler f) {g : GameState}
    (hg : Inv g) (a b c : Card) :
    remove_set f g a b c ≠ .error .internalError := by
  by_cases h1 : g.state = State.GAME_OVER
  · intro he
    unfold remove_set at he
    rw [if_pos h1] at he
    cases Except.error.inj he
  · by_cases h2 : ({a, b, c} : Finset Card).card ≠ 3
    · intro he
      unfold remove_set at he
      rw [if_neg h1, if_pos h2] at he
      cases Except.error.inj he
    · by_cases h3 : ¬(a ∈ g.active ∧ b ∈ g.active ∧ c ∈ g.active)
      · intro he
        unfold remove_set at he
        rw [if_neg h1, if_neg h2, if_pos h3] at he
        cases Except.error.inj he
      · by_cases h4 : Card.complement a b ≠ some c
        · intro he
          unfold remove_set at he
          rw [if_neg h1, if_neg h2, if_neg h3, if_pos h4] at he
          cases Except.error.inj he
        · obtain ⟨hab, hac, hbc⟩ := card3_distinct (not_not.mp h2)
          obtain ⟨ha, hb, hc⟩ := not_not.mp h3
          have hst : g.state = State.IN_GAME := by
            cases hs : g.state
            · rfl
            · exact absurd hs h1
          obtain ⟨gmid, g2, -, -, hok, -, -, -⟩ :=
            remove_set_ok hf hg hst hab hac hbc ha hb hc (not_not.mp h4)
          rw [hok]
          intro he
          cases he

/-- C10: on every reachable state the draw pile size is a multiple of 3
(69 − 3k after the initial deal), so every internal deal finds at least 3
cards in a non-empty pile: `random.sample` is never asked for more cards
than the pile holds, no internal sampling failure surfaces from
`remove_set`, and `new_game` never fails — partial replenishment cannot
occur. -/
theorem draw_pile_multiple_of_three (f : Sampler) (hf : IsValidSampler f)
    (g : GameState) (hr : Reachable f g) :
    3 ∣ g.draw.card ∧ (0 < g.draw.card → 3 ≤ g.draw.card) ∧
    (∀ a b c, remove_set f g a b c ≠ .error .internalError) ∧
    new_game f ≠ none := by
  have hInv := reachable_inv hf hr
  refine ⟨hInv.2.1, ?_, ?_, ?_⟩
  · intro hpos
    exact Nat.le_of_dvd hpos hInv.2.1
  · intro a b c
    exact remove_set_no_internal hf hInv a b c
  · obtain ⟨g0, h0, -⟩ := new_game_full f hf
    rw [h0]
    intro hx
    cases hx

theorem draw_pile_multiple_of_three_witness :
    IsValidSampler defaultSample ∧ Reachable defaultSample gFirst ∧
    (3 ∣ gFirst.draw.card ∧ (0 < gFirst.draw.card → 3 ≤ gFirst.draw.card) ∧
      (∀ a b c, remove_set defaultSample gFirst a b c ≠ .error .internalError) ∧
      new_game defaultSample ≠ none) :=
  ⟨defaultSample_valid, Reachable.init gFirst new_game_defaultSample,
    draw_pile_multiple_of_three defaultSample defaultSample_valid gFirst
      (Reachable.init gFirst new_game_defaultSample)⟩

end PySET
